import Mathlib

/-!
Verification development for the dfact Householder QR / SVD library
(src/qr.py).  Matrices and vectors are embedded as functions out of ℕ
with explicit dimension arguments; scalars range over an `RCLike` field
(so both the real and the complex case are covered).  Floating point
arithmetic is modelled by exact arithmetic; `jnp.linalg.norm` becomes
`Real.sqrt` of a sum of squared norms.
-/

set_option linter.unusedSectionVars false

namespace DFact

open Finset

variable {𝕜 : Type} [RCLike 𝕜] [DecidableEq 𝕜]

/-- Vectors: index function; the logical length is carried separately. -/
abbrev Vec (𝕜 : Type) := ℕ → 𝕜

/-- Matrices: row/column index function; logical shape carried separately. -/
abbrev Mat (𝕜 : Type) := ℕ → ℕ → 𝕜

/-- Scalar conjugation (`jnp.conj` on entries; identity over ℝ). -/
def cj (z : 𝕜) : 𝕜 := (starRingEnd 𝕜) z

/-- Source `sign(num)`: `num / |num|`, and `0` if `num == 0`. -/
noncomputable def sign (num : 𝕜) : 𝕜 :=
  if num = 0 then 0 else num / ((‖num‖ : ℝ) : 𝕜)

/-- Squared norm of the tail `x[1:]` of a length-`k` vector. -/
noncomputable def tailNormSq (k : ℕ) (x : Vec 𝕜) : ℝ :=
  ∑ i ∈ Finset.Ico 1 k, ‖x i‖ ^ 2

/-- Source `x_2_norm = jnp.linalg.norm(x_in[1:])` for a length-`k` vector. -/
noncomputable def x2norm (k : ℕ) (x : Vec 𝕜) : ℝ :=
  Real.sqrt (tailNormSq k x)

/-- Source `__house_zero_norm(x)`: the branch of `house` with
`norm(x[1:]) == 0`.  Returns `v = x` with `v[0]` forced to `1`, and
`beta = 0` if `x[0] == 0` else `beta = 2`. -/
noncomputable def house_zero_norm (x : Vec 𝕜) : Vec 𝕜 × ℝ :=
  (fun i => if i = 0 then 1 else x i, if x 0 = 0 then 0 else 2)

/-- Source `rho = sign(x_in[0]) * x_norm` with
`x_norm = jnp.linalg.norm([x_in[0], x_2_norm])`. -/
noncomputable def house_rho (x : Vec 𝕜) (t : ℝ) : 𝕜 :=
  sign (x 0) * ((Real.sqrt (‖x 0‖ ^ 2 + t ^ 2) : ℝ) : 𝕜)

/-- Source choice of the pivot `v_1`: whichever of
`v_1p = x[0] + rho`, `v_1m = x[0] - rho` has the larger absolute value
(ties go to `v_1p`, matching `v_1pabs >= v_1mabs`).  Returns the chosen
value together with its absolute value, as the source keeps both. -/
noncomputable def house_v1 (x : Vec 𝕜) (t : ℝ) : 𝕜 × ℝ :=
  if ‖x 0 + house_rho x t‖ ≥ ‖x 0 - house_rho x t‖ then
    (x 0 + house_rho x t, ‖x 0 + house_rho x t‖)
  else
    (x 0 - house_rho x t, ‖x 0 - house_rho x t‖)

/-- Source `__house_nonzero_norm((x, x_2_norm))`: the branch of `house`
with `norm(x[1:]) != 0`.  `v[1:] = x[1:] / v_1`, `v[0] = 1`,
`beta = 2 / (1 + (x_2_norm / |v_1|)^2)` (real). -/
noncomputable def house_nonzero_norm (x : Vec 𝕜) (t : ℝ) : Vec 𝕜 × ℝ :=
  (fun i => if i = 0 then 1 else x i / (house_v1 x t).1,
   2 / (1 + (t / (house_v1 x t).2) ^ 2))

/-- Source `house(x_in)` for a length-`k` vector: dispatches on
`x_2_norm == 0` between the two branches. -/
noncomputable def house (k : ℕ) (x : Vec 𝕜) : Vec 𝕜 × ℝ :=
  if x2norm k x = 0 then house_zero_norm x
  else house_nonzero_norm x (x2norm k x)

/-- Hermitian dot product `dag(u) @ w` of two length-`k` vectors. -/
def hdot (k : ℕ) (u w : Vec 𝕜) : 𝕜 :=
  ∑ r ∈ Finset.range k, cj (u r) * w r

/-- Squared Euclidean norm of a length-`k` vector. -/
noncomputable def vecNormSq (k : ℕ) (y : Vec 𝕜) : ℝ :=
  ∑ i ∈ Finset.range k, ‖y i‖ ^ 2

/-- Euclidean norm (`jnp.linalg.norm`) of a length-`k` vector. -/
noncomputable def vecNorm (k : ℕ) (y : Vec 𝕜) : ℝ :=
  Real.sqrt (vecNormSq k y)

/-- The Householder matrix `P = I - beta * v otimes dag(v)` built by
`form_dense_P([v, beta])` for `(v, beta) = house(x)`, applied to `x`
itself. -/
noncomputable def housePapply (k : ℕ) (x : Vec 𝕜) : Vec 𝕜 :=
  fun i =>
    x i - (((house k x).2 : ℝ) : 𝕜) * (house k x).1 i * hdot k (house k x).1 x

/-- The nonzero-tail branch of `house` divides `x[1:]` (and `x_2_norm`)
by the chosen pivot `v_1`; this predicate records that the divisor is
zero there, i.e. that `house` performs a division by zero on `x`. -/
noncomputable def houseDividesByZero (k : ℕ) (x : Vec 𝕜) : Prop :=
  x2norm k x ≠ 0 ∧ (house_v1 x (x2norm k x)).1 = 0

theorem tailNormSq_nonneg (k : ℕ) (x : Vec 𝕜) : 0 ≤ tailNormSq k x :=
  Finset.sum_nonneg fun _ _ => sq_nonneg _

theorem x2norm_nonneg (k : ℕ) (x : Vec 𝕜) : 0 ≤ x2norm k x :=
  Real.sqrt_nonneg _

theorem x2norm_sq (k : ℕ) (x : Vec 𝕜) : x2norm k x ^ 2 = tailNormSq k x :=
  Real.sq_sqrt (tailNormSq_nonneg k x)

theorem x2norm_eq_zero_iff (k : ℕ) (x : Vec 𝕜) :
    x2norm k x = 0 ↔ ∀ i, 1 ≤ i → i < k → x i = 0 := by
  unfold x2norm
  rw [show (0:ℝ) = Real.sqrt 0 by simp]
  rw [Real.sqrt_inj (tailNormSq_nonneg k x) le_rfl]
  unfold tailNormSq
  rw [Finset.sum_eq_zero_iff_of_nonneg (fun i _ => sq_nonneg _)]
  constructor
  · intro h i h1 h2
    have h3 := h i (Finset.mem_Ico.mpr ⟨h1, h2⟩)
    have h4 : ‖x i‖ = 0 := by nlinarith [norm_nonneg (x i)]
    simpa using h4
  · intro h i hi
    rcases Finset.mem_Ico.mp hi with ⟨h1, h2⟩
    simp [h i h1 h2]

theorem house_v0 (k : ℕ) (x : Vec 𝕜) : (house k x).1 0 = 1 := by
  unfold house house_zero_norm house_nonzero_norm
  by_cases h : x2norm k x = 0 <;> simp [h]

theorem house_v1p_eq (x : Vec 𝕜) (t : ℝ) (ha : x 0 ≠ 0) :
    x 0 + house_rho x t
      = x 0 * (((‖x 0‖ + Real.sqrt (‖x 0‖ ^ 2 + t ^ 2)) / ‖x 0‖ : ℝ) : 𝕜) := by
  have hα : (0:ℝ) < ‖x 0‖ := norm_pos_iff.mpr ha
  have hα' : ((‖x 0‖ : ℝ) : 𝕜) ≠ 0 := by
    simpa using ne_of_gt hα
  unfold house_rho sign
  rw [if_neg ha]
  push_cast
  field_simp
  ring

theorem house_v1m_eq (x : Vec 𝕜) (t : ℝ) (ha : x 0 ≠ 0) :
    x 0 - house_rho x t
      = x 0 * (((‖x 0‖ - Real.sqrt (‖x 0‖ ^ 2 + t ^ 2)) / ‖x 0‖ : ℝ) : 𝕜) := by
  have hα : (0:ℝ) < ‖x 0‖ := norm_pos_iff.mpr ha
  have hα' : ((‖x 0‖ : ℝ) : 𝕜) ≠ 0 := by
    simpa using ne_of_gt hα
  unfold house_rho sign
  rw [if_neg ha]
  push_cast
  field_simp
  ring

theorem house_v1p_norm (x : Vec 𝕜) (t : ℝ) (ha : x 0 ≠ 0) :
    ‖x 0 + house_rho x t‖ = ‖x 0‖ + Real.sqrt (‖x 0‖ ^ 2 + t ^ 2) := by
  have hα : (0:ℝ) < ‖x 0‖ := norm_pos_iff.mpr ha
  rw [house_v1p_eq x t ha, norm_mul, RCLike.norm_ofReal,
    abs_of_nonneg (by positivity)]
  field_simp

theorem house_v1_eq (x : Vec 𝕜) (t : ℝ) (ha : x 0 ≠ 0) :
    house_v1 x t = (x 0 + house_rho x t,
      ‖x 0‖ + Real.sqrt (‖x 0‖ ^ 2 + t ^ 2)) := by
  have hα : (0:ℝ) < ‖x 0‖ := norm_pos_iff.mpr ha
  have hN0 : 0 ≤ Real.sqrt (‖x 0‖ ^ 2 + t ^ 2) := Real.sqrt_nonneg _
  have hαN : ‖x 0‖ ≤ Real.sqrt (‖x 0‖ ^ 2 + t ^ 2) := by
    have h1 := Real.sqrt_le_sqrt
      (show ‖x 0‖ ^ 2 ≤ ‖x 0‖ ^ 2 + t ^ 2 by nlinarith [sq_nonneg t])
    rwa [Real.sqrt_sq (le_of_lt hα)] at h1
  have hp : ‖x 0 + house_rho x t‖
      = ‖x 0‖ + Real.sqrt (‖x 0‖ ^ 2 + t ^ 2) := house_v1p_norm x t ha
  have hm : ‖x 0 - house_rho x t‖
      = Real.sqrt (‖x 0‖ ^ 2 + t ^ 2) - ‖x 0‖ := by
    rw [house_v1m_eq x t ha, norm_mul, RCLike.norm_ofReal]
    rw [abs_div, abs_of_nonneg (le_of_lt hα),
      abs_of_nonpos (by linarith : ‖x 0‖ - Real.sqrt (‖x 0‖ ^ 2 + t ^ 2) ≤ 0)]
    field_simp
  unfold house_v1
  rw [if_pos (by rw [hp, hm]; linarith)]
  rw [hp]

theorem house_v1_ne_zero (x : Vec 𝕜) (t : ℝ) (ha : x 0 ≠ 0) :
    (house_v1 x t).1 ≠ 0 := by
  have hα : (0:ℝ) < ‖x 0‖ := norm_pos_iff.mpr ha
  have h2 : (0:ℝ) < ‖(house_v1 x t).1‖ := by
    rw [house_v1_eq x t ha]
    rw [house_v1p_eq x t ha, norm_mul, RCLike.norm_ofReal]
    have hN0 : 0 ≤ Real.sqrt (‖x 0‖ ^ 2 + t ^ 2) := Real.sqrt_nonneg _
    have : |(‖x 0‖ + Real.sqrt (‖x 0‖ ^ 2 + t ^ 2)) / ‖x 0‖|
        = (‖x 0‖ + Real.sqrt (‖x 0‖ ^ 2 + t ^ 2)) / ‖x 0‖ :=
      abs_of_nonneg (by positivity)
    rw [this]
    positivity
  exact fun h => by simp [h] at h2

theorem x2norm_pos_k_pos (k : ℕ) (x : Vec 𝕜) (ht : x2norm k x ≠ 0) : 0 < k := by
  rcases Nat.eq_zero_or_pos k with h | h
  · subst h
    simp [x2norm, tailNormSq] at ht
  · exact h

theorem house_hdot_eq (k : ℕ) (x : Vec 𝕜) (ht : x2norm k x ≠ 0) :
    hdot k (house k x).1 x
      = x 0 + ((tailNormSq k x : ℝ) : 𝕜) / cj (house_v1 x (x2norm k x)).1 := by
  have hk : 0 < k := x2norm_pos_k_pos k x ht
  unfold hdot
  rw [Finset.range_eq_Ico, Finset.sum_eq_sum_Ico_succ_bot hk]
  have hv0 : cj ((house k x).1 0) = 1 := by
    rw [house_v0]
    simp [cj]
  rw [hv0, one_mul]
  congr 1
  have hstep : ∀ r ∈ Finset.Ico 1 k,
      cj ((house k x).1 r) * x r
        = ((‖x r‖ ^ 2 : ℝ) : 𝕜) / cj (house_v1 x (x2norm k x)).1 := by
    intro r hr
    rcases Finset.mem_Ico.mp hr with ⟨h1, _⟩
    have hvr : (house k x).1 r = x r / (house_v1 x (x2norm k x)).1 := by
      unfold house house_nonzero_norm
      rw [if_neg ht]
      simp [Nat.one_le_iff_ne_zero.mp h1]
    rw [hvr]
    unfold cj
    rw [map_div₀]
    rw [div_mul_eq_mul_div, mul_comm ((starRingEnd 𝕜) (x r)) (x r),
      RCLike.mul_conj]
    push_cast
    ring
  rw [Finset.sum_congr rfl hstep]
  rw [← Finset.sum_div]
  congr 1
  unfold tailNormSq
  rw [RCLike.ofReal_sum]

theorem house_beta_eq (k : ℕ) (x : Vec 𝕜) (ht : x2norm k x ≠ 0) :
    (house k x).2
      = 2 / (1 + (x2norm k x / (house_v1 x (x2norm k x)).2) ^ 2) := by
  unfold house house_nonzero_norm
  rw [if_neg ht]

theorem house_beta_hdot (k : ℕ) (x : Vec 𝕜) (ha : x 0 ≠ 0)
    (ht : x2norm k x ≠ 0) :
    (((house k x).2 : ℝ) : 𝕜) * hdot k (house k x).1 x
      = (house_v1 x (x2norm k x)).1 := by
  have htpos : 0 < x2norm k x :=
    lt_of_le_of_ne (x2norm_nonneg k x) (Ne.symm ht)
  have hα : (0:ℝ) < ‖x 0‖ := norm_pos_iff.mpr ha
  set t := x2norm k x with htdef
  set α := ‖x 0‖ with hαdef
  set Nn := Real.sqrt (α ^ 2 + t ^ 2) with hNdef
  have hNsq : Nn ^ 2 = α ^ 2 + t ^ 2 := Real.sq_sqrt (by positivity)
  have hNpos : 0 < Nn := Real.sqrt_pos.mpr (by positivity)
  have hαN : α < Nn := by nlinarith
  have hTsq : tailNormSq k x = t ^ 2 := by
    rw [htdef, x2norm_sq]
  rw [house_hdot_eq k x ht, hTsq, house_beta_eq k x ht]
  rw [house_v1_eq x t ha, house_v1p_eq x t ha]
  have hbeta : (2 / (1 + (t / (α + Nn)) ^ 2) : ℝ) = (α + Nn) / Nn := by
    rw [div_eq_div_iff (by positivity) (by positivity)]
    field_simp
    nlinarith [hNsq]
  rw [hbeta]
  have hcj : cj (x 0 * (((α + Nn) / α : ℝ) : 𝕜))
      = cj (x 0) * (((α + Nn) / α : ℝ) : 𝕜) := by
    unfold cj
    rw [map_mul, RCLike.conj_ofReal]
  rw [hcj]
  have hconj : x 0 * cj (x 0) = ((α : ℝ) : 𝕜) ^ 2 := by
    unfold cj
    rw [RCLike.mul_conj]
  have hca : cj (x 0) ≠ 0 := by
    unfold cj
    simpa using ha
  have hαne : ((α : ℝ) : 𝕜) ≠ 0 := RCLike.ofReal_ne_zero.mpr (ne_of_gt hα)
  have hNne : ((Nn : ℝ) : 𝕜) ≠ 0 := RCLike.ofReal_ne_zero.mpr (ne_of_gt hNpos)
  have hSne0 : (0:ℝ) < α + Nn := by linarith
  have hSne : (((α + Nn : ℝ)) : 𝕜) ≠ 0 := RCLike.ofReal_ne_zero.mpr (ne_of_gt hSne0)
  have hcne : (((α + Nn) / α : ℝ) : 𝕜) ≠ 0 :=
    RCLike.ofReal_ne_zero.mpr (ne_of_gt (by positivity))
  have hNsq' : ((Nn : ℝ) : 𝕜) ^ 2 = ((α : ℝ) : 𝕜) ^ 2 + ((t : ℝ) : 𝕜) ^ 2 := by
    have h5 := congrArg (fun r : ℝ => ((r : ℝ) : 𝕜)) hNsq
    push_cast at h5
    exact_mod_cast h5
  have hstep1 : ((t ^ 2 : ℝ) : 𝕜) / (cj (x 0) * (((α + Nn) / α : ℝ) : 𝕜))
      = x 0 * (((Nn - α) / α : ℝ) : 𝕜) := by
    rw [div_eq_iff (mul_ne_zero hca hcne)]
    push_cast
    field_simp
    linear_combination ((α:𝕜) ^ 2 - (Nn:𝕜) ^ 2) * hconj - (α:𝕜) ^ 2 * hNsq'
  rw [hstep1]
  push_cast
  field_simp
  ring

theorem house_v1_abs (x : Vec 𝕜) (t : ℝ) (ha : x 0 ≠ 0) :
    (house_v1 x t).2 = ‖(house_v1 x t).1‖ := by
  rw [house_v1_eq x t ha]
  exact (house_v1p_norm x t ha).symm

theorem house_papply_tail (k : ℕ) (x : Vec 𝕜)
    (hgood : x 0 ≠ 0 ∨ x2norm k x = 0) :
    ∀ i, 1 ≤ i → i < k → housePapply k x i = 0 := by
  intro i h1 h2
  by_cases ht : x2norm k x = 0
  · have hx : x i = 0 := (x2norm_eq_zero_iff k x).mp ht i h1 h2
    have hv : (house k x).1 i = x i := by
      unfold house house_zero_norm
      rw [if_pos ht]
      simp [Nat.one_le_iff_ne_zero.mp h1]
    unfold housePapply
    rw [hv, hx]
    ring
  · have ha : x 0 ≠ 0 := hgood.resolve_right ht
    have hv : (house k x).1 i = x i / (house_v1 x (x2norm k x)).1 := by
      unfold house house_nonzero_norm
      rw [if_neg ht]
      simp [Nat.one_le_iff_ne_zero.mp h1]
    have hkey := house_beta_hdot k x ha ht
    unfold housePapply
    rw [hv]
    calc x i - (((house k x).2 : ℝ) : 𝕜) * (x i / (house_v1 x (x2norm k x)).1)
          * hdot k (house k x).1 x
        = x i - ((((house k x).2 : ℝ) : 𝕜) * hdot k (house k x).1 x)
          * (x i / (house_v1 x (x2norm k x)).1) := by ring
      _ = x i - (house_v1 x (x2norm k x)).1
          * (x i / (house_v1 x (x2norm k x)).1) := by rw [hkey]
      _ = 0 := by
          field_simp [house_v1_ne_zero x (x2norm k x) ha]

theorem house_papply_head (k : ℕ) (x : Vec 𝕜) (ha : x 0 ≠ 0)
    (ht : x2norm k x ≠ 0) :
    housePapply k x 0 = x 0 - (house_v1 x (x2norm k x)).1 := by
  have hkey := house_beta_hdot k x ha ht
  unfold housePapply
  rw [house_v0]
  calc x 0 - (((house k x).2 : ℝ) : 𝕜) * 1 * hdot k (house k x).1 x
      = x 0 - ((((house k x).2 : ℝ) : 𝕜) * hdot k (house k x).1 x) := by ring
    _ = x 0 - (house_v1 x (x2norm k x)).1 := by rw [hkey]

theorem vecNormSq_split (k : ℕ) (y : Vec 𝕜) (hk : 0 < k) :
    vecNormSq k y = ‖y 0‖ ^ 2 + tailNormSq k y := by
  unfold vecNormSq tailNormSq
  rw [Finset.range_eq_Ico, Finset.sum_eq_sum_Ico_succ_bot hk]

theorem house_hdot_zero_branch (k : ℕ) (x : Vec 𝕜) (hk : 0 < k)
    (ht : x2norm k x = 0) :
    hdot k (house k x).1 x = x 0 := by
  unfold hdot
  rw [Finset.range_eq_Ico, Finset.sum_eq_sum_Ico_succ_bot hk]
  have hv0 : cj ((house k x).1 0) = 1 := by
    rw [house_v0]
    simp [cj]
  rw [hv0, one_mul]
  have hz : ∀ r ∈ Finset.Ico 1 k, cj ((house k x).1 r) * x r = 0 := by
    intro r hr
    rcases Finset.mem_Ico.mp hr with ⟨h1, h2⟩
    rw [(x2norm_eq_zero_iff k x).mp ht r h1 h2]
    ring
  rw [Finset.sum_congr rfl hz]
  simp

theorem house_norm_preservedSq (k : ℕ) (x : Vec 𝕜)
    (hgood : x 0 ≠ 0 ∨ x2norm k x = 0) :
    vecNormSq k (housePapply k x) = vecNormSq k x := by
  rcases Nat.eq_zero_or_pos k with hk | hk
  · subst hk
    simp [vecNormSq]
  rw [vecNormSq_split k _ hk, vecNormSq_split k x hk]
  have htail : tailNormSq k (housePapply k x) = 0 := by
    unfold tailNormSq
    apply Finset.sum_eq_zero
    intro r hr
    rcases Finset.mem_Ico.mp hr with ⟨h1, h2⟩
    rw [house_papply_tail k x hgood r h1 h2]
    simp
  rw [htail, add_zero]
  by_cases ht : x2norm k x = 0
  · have hTsq0 : tailNormSq k x = 0 := by
      have h5 := x2norm_sq k x
      rw [ht] at h5
      simpa using h5.symm
    rw [hTsq0, add_zero]
    by_cases ha : x 0 = 0
    · have hP0 : housePapply k x 0 = x 0 := by
        have hβ : (house k x).2 = 0 := by
          unfold house house_zero_norm
          rw [if_pos ht]
          simp [ha]
        unfold housePapply
        rw [hβ]
        push_cast
        ring
      rw [hP0]
    · have hβ : (house k x).2 = 2 := by
        unfold house house_zero_norm
        rw [if_pos ht]
        simp [ha]
      have hP0 : housePapply k x 0 = -x 0 := by
        unfold housePapply
        rw [house_v0, house_hdot_zero_branch k x hk ht, hβ]
        push_cast
        ring
      rw [hP0, norm_neg]
  · have ha : x 0 ≠ 0 := hgood.resolve_right ht
    have hα : (0:ℝ) < ‖x 0‖ := norm_pos_iff.mpr ha
    set t := x2norm k x with htdef
    set α := ‖x 0‖ with hαdef
    set Nn := Real.sqrt (α ^ 2 + t ^ 2) with hNdef
    have hNsq : Nn ^ 2 = α ^ 2 + t ^ 2 := Real.sq_sqrt (by positivity)
    have hNpos : 0 < Nn := Real.sqrt_pos.mpr (by positivity)
    have hP0 : housePapply k x 0 = x 0 * ((-(Nn / α) : ℝ) : 𝕜) := by
      rw [house_papply_head k x ha ht, house_v1_eq x t ha,
        house_v1p_eq x t ha]
      have hαne : ((α : ℝ) : 𝕜) ≠ 0 := RCLike.ofReal_ne_zero.mpr (ne_of_gt hα)
      push_cast
      field_simp
      ring
    rw [hP0, norm_mul, RCLike.norm_ofReal, abs_neg,
      abs_of_nonneg (by positivity)]
    have hTsq : tailNormSq k x = t ^ 2 := by
      rw [htdef, x2norm_sq]
    rw [hTsq]
    field_simp
    nlinarith [hNsq]

theorem house_norm_preserved (k : ℕ) (x : Vec 𝕜)
    (hgood : x 0 ≠ 0 ∨ x2norm k x = 0) :
    vecNorm k (housePapply k x) = vecNorm k x := by
  unfold vecNorm
  rw [house_norm_preservedSq k x hgood]

theorem house_beta_cases (k : ℕ) (x : Vec 𝕜) (hk : 0 < k)
    (hgood : x 0 ≠ 0 ∨ x2norm k x = 0) :
    (house k x).2 = 0 ∨ (house k x).2 * vecNormSq k (house k x).1 = 2 := by
  by_cases ht : x2norm k x = 0
  · by_cases ha : x 0 = 0
    · left
      unfold house house_zero_norm
      rw [if_pos ht]
      simp [ha]
    · right
      have hβ : (house k x).2 = 2 := by
        unfold house house_zero_norm
        rw [if_pos ht]
        simp [ha]
      have hnorm : vecNormSq k (house k x).1 = 1 := by
        rw [vecNormSq_split _ _ hk]
        have h0 : ‖(house k x).1 0‖ ^ 2 = 1 := by
          rw [house_v0]
          simp
        have htail : tailNormSq k (house k x).1 = 0 := by
          unfold tailNormSq
          apply Finset.sum_eq_zero
          intro r hr
          rcases Finset.mem_Ico.mp hr with ⟨h1, h2⟩
          have hv : (house k x).1 r = x r := by
            unfold house house_zero_norm
            rw [if_pos ht]
            simp [Nat.one_le_iff_ne_zero.mp h1]
          rw [hv, (x2norm_eq_zero_iff k x).mp ht r h1 h2]
          simp
        rw [h0, htail, add_zero]
      rw [hβ, hnorm]
      norm_num
  · right
    have ha : x 0 ≠ 0 := hgood.resolve_right ht
    set t := x2norm k x with htdef
    set S := (house_v1 x t).2 with hSdef
    have hα : (0:ℝ) < ‖x 0‖ := norm_pos_iff.mpr ha
    have hSpos : 0 < S := by
      rw [hSdef, house_v1_eq x t ha]
      dsimp only
      have := Real.sqrt_nonneg (‖x 0‖ ^ 2 + t ^ 2)
      linarith
    have hnorm : vecNormSq k (house k x).1
        = 1 + tailNormSq k x / S ^ 2 := by
      rw [vecNormSq_split _ _ hk]
      have h0 : ‖(house k x).1 0‖ ^ 2 = 1 := by
        rw [house_v0]
        simp
      have htail : tailNormSq k (house k x).1 = tailNormSq k x / S ^ 2 := by
        unfold tailNormSq
        rw [Finset.sum_div]
        apply Finset.sum_congr rfl
        intro r hr
        rcases Finset.mem_Ico.mp hr with ⟨h1, h2⟩
        have hv : (house k x).1 r = x r / (house_v1 x t).1 := by
          unfold house house_nonzero_norm
          rw [if_neg ht]
          simp [Nat.one_le_iff_ne_zero.mp h1]
        rw [hv, norm_div, div_pow, hSdef, house_v1_abs x t ha]
      rw [h0, htail]
    have hβ : (house k x).2 = 2 / (1 + (t / S) ^ 2) :=
      house_beta_eq k x ht
    rw [hβ, hnorm]
    have hTsq : tailNormSq k x = t ^ 2 := by
      rw [htdef, x2norm_sq]
    rw [hTsq, div_pow]
    have hd : 1 + t ^ 2 / S ^ 2 ≠ 0 := by positivity
    field_simp

theorem house_beta_zero_vec (k : ℕ) (x : Vec 𝕜) (hk : 0 < k)
    (hzero : ∀ i, i < k → x i = 0) : (house k x).2 = 0 := by
  have ht : x2norm k x = 0 :=
    (x2norm_eq_zero_iff k x).mpr fun i h1 h2 => hzero i h2
  unfold house house_zero_norm
  rw [if_pos ht]
  simp [hzero 0 hk]

theorem houseDividesByZero_iff (k : ℕ) (x : Vec 𝕜) :
    houseDividesByZero k x ↔ x2norm k x ≠ 0 ∧ x 0 = 0 := by
  unfold houseDividesByZero
  constructor
  · rintro ⟨ht, hv⟩
    refine ⟨ht, ?_⟩
    by_contra ha
    exact house_v1_ne_zero x (x2norm k x) ha hv
  · rintro ⟨ht, ha⟩
    refine ⟨ht, ?_⟩
    have hrho : house_rho x (x2norm k x) = 0 := by
      unfold house_rho sign
      rw [if_pos ha]
      ring
    unfold house_v1
    rw [hrho]
    simp [ha]

/-- Identity matrix (`jnp.eye`); entries outside the logical square are
never read by the operations below. -/
def idMat : Mat 𝕜 := fun i l => if i = l then 1 else 0

/-- Matrix product with inner dimension `K`. -/
def matMulN (K : ℕ) (A B : Mat 𝕜) : Mat 𝕜 :=
  fun i l => ∑ r ∈ Finset.range K, A i r * B r l

/-- Matrix-vector product with inner dimension `K`. -/
def mulVecN (K : ℕ) (A : Mat 𝕜) (w : Vec 𝕜) : Vec 𝕜 :=
  fun i => ∑ r ∈ Finset.range K, A i r * w r

/-- Source `matutils.dag`: conjugate transpose. -/
def dag (A : Mat 𝕜) : Mat 𝕜 := fun i l => cj (A l i)

/-- Source `house_leftmult(A, v, beta) = A - outer(beta*v, dag(v) @ A)`
for a matrix with `M` rows. -/
noncomputable def house_leftmult (M : ℕ) (A : Mat 𝕜) (v : Vec 𝕜) (β : ℝ) :
    Mat 𝕜 :=
  fun i l => A i l
    - ((β : ℝ) : 𝕜) * v i * (∑ r ∈ Finset.range M, cj (v r) * A r l)

/-- The trailing submatrix `H[j:, j:]` as an index shift. -/
def sliceMat (j : ℕ) (H : Mat 𝕜) : Mat 𝕜 := fun i l => H (j + i) (j + l)

/-- One iteration of the loop of `__house_qr_factored` at column `j` of
an `m`-row working matrix `H`:
`v, thisbeta = house(H[j:, j])`;
`H[j:, j:] = house_leftmult(H[j:, j:], v, thisbeta)`;
`if j < M: H[j+1:, j] = v[1:]`. -/
noncomputable def houseStep (m j : ℕ) (H : Mat 𝕜) : Mat 𝕜 × ℝ :=
  let vb := house (m - j) (fun i => H (j + i) j)
  let upd := house_leftmult (m - j) (sliceMat j H) vb.1 vb.2
  let H1 : Mat 𝕜 := fun i l =>
    if j ≤ i ∧ j ≤ l then upd (i - j) (l - j) else H i l
  let H2 : Mat 𝕜 := fun i l =>
    if j < m ∧ l = j ∧ j + 1 ≤ i then vb.1 (i - j) else H1 i l
  (H2, vb.2)

/-- The working state of `__house_qr_factored` after the first `j`
columns have been processed, paired with the betas recorded so far. -/
noncomputable def houseQRFactoredAux (m : ℕ) (A : Mat 𝕜) :
    ℕ → Mat 𝕜 × (ℕ → ℝ)
  | 0 => (A, fun _ => 0)
  | j + 1 =>
    let prev := houseQRFactoredAux m A j
    let st := houseStep m j prev.1
    (st.1, fun i => if i = j then st.2 else prev.2 i)

/-- Source `__house_qr_factored(A)` for an `m x n` matrix: the factored
QR representation `[H, beta]`. -/
noncomputable def house_qr_factored (m n : ℕ) (A : Mat 𝕜) :
    Mat 𝕜 × (ℕ → ℝ) :=
  houseQRFactoredAux m A n

/-- Source `jnp.triu`. -/
def triu (H : Mat 𝕜) : Mat 𝕜 := fun i l => if i ≤ l then H i l else 0

/-- One iteration of the `factored_to_QR` loop at index `j`:
`v = concatenate(([1.], h[j+1:, j]))`;
`Q[j:, j:] = house_leftmult(Q[j:, j:], v, beta[j])`. -/
noncomputable def qStep (m : ℕ) (h : Mat 𝕜) (β : ℕ → ℝ) (j : ℕ)
    (Q : Mat 𝕜) : Mat 𝕜 :=
  let v : Vec 𝕜 := fun i => if i = 0 then 1 else h (j + i) j
  let upd := house_leftmult (m - j) (sliceMat j Q) v (β j)
  fun i l => if j ≤ i ∧ j ≤ l then upd (i - j) (l - j) else Q i l

/-- The state of the `factored_to_QR` loop (which runs `j` from `n-1`
down to `0`, starting from the identity) after `k` iterations. -/
noncomputable def factoredToQAux (m : ℕ) (h : Mat 𝕜) (β : ℕ → ℝ)
    (n : ℕ) : ℕ → Mat 𝕜
  | 0 => idMat
  | k + 1 => qStep m h β (n - (k + 1)) (factoredToQAux m h β n k)

/-- Source `factored_to_QR(h, beta)` for the `m x n` factored
representation: dense `[Q, R]` with `Q` of shape `m x m` and
`R = triu(h)`. -/
noncomputable def factored_to_QR (m n : ℕ) (h : Mat 𝕜) (β : ℕ → ℝ) :
    Mat 𝕜 × Mat 𝕜 :=
  (factoredToQAux m h β n n, triu h)

/-- Padding of a Householder vector for step `j` to full height:
zeros above position `j`, the vector itself (whose head is 1) from
position `j` on. -/
def upad (j : ℕ) (v : Vec 𝕜) : Vec 𝕜 :=
  fun i => if i < j then 0 else v (i - j)

/-- The full-height Householder vector of step `j` as reconstructed by
the conversion routines from a stored factored matrix `h`: 1 at `j`,
`h[i, j]` below, zeros above. -/
def ucVec (h : Mat 𝕜) (j : ℕ) : Vec 𝕜 :=
  fun i => if i < j then 0 else if i = j then 1 else h i j

/-- Dense Householder reflector `I - beta * u otimes dag(u)`
(`form_dense_P`). -/
noncomputable def reflMat (β : ℝ) (u : Vec 𝕜) : Mat 𝕜 :=
  fun i l => idMat i l - ((β : ℝ) : 𝕜) * u i * cj (u l)

/-- Apply the reflectors of a family in ascending order
`E (j+k-1) * (... * (E j * w))`. -/
noncomputable def applyFwd (m : ℕ) (βf : ℕ → ℝ) (u : ℕ → Vec 𝕜)
    (j : ℕ) : ℕ → Vec 𝕜 → Vec 𝕜
  | 0, w => w
  | k + 1, w =>
    mulVecN m (reflMat (βf (j + k)) (u (j + k))) (applyFwd m βf u j k w)

/-- Apply the reflectors of a family in descending order
`E j * (E (j+1) * (... * (E (j+k-1) * w)))`. -/
noncomputable def applyBwd (m : ℕ) (βf : ℕ → ℝ) (u : ℕ → Vec 𝕜) :
    ℕ → ℕ → Vec 𝕜 → Vec 𝕜
  | _, 0, w => w
  | j, k + 1, w =>
    mulVecN m (reflMat (βf j) (u j)) (applyBwd m βf u (j + 1) k w)

/-- Matrix product of the reflectors `E j * E (j+1) * ... * E (j+k-1)`. -/
noncomputable def Eprod (m : ℕ) (βf : ℕ → ℝ) (u : ℕ → Vec 𝕜) :
    ℕ → ℕ → Mat 𝕜
  | _, 0 => idMat
  | j, k + 1 => matMulN m (reflMat (βf j) (u j)) (Eprod m βf u (j + 1) k)

/-- A reflector is admissible when its scale is 0 (identity reflector)
or `beta * |u|^2 = 2` (genuine involutive reflector). -/
noncomputable def reflOK (m : ℕ) (β : ℝ) (u : Vec 𝕜) : Prop :=
  β = 0 ∨ β * vecNormSq m u = 2

theorem sum_tail_shift {M : Type} [AddCommMonoid M] (m j : ℕ) (f : ℕ → M) :
    ∑ s ∈ Finset.Ico j m, f s = ∑ r ∈ Finset.range (m - j), f (j + r) :=
  Finset.sum_Ico_eq_sum_range f j m

theorem sum_range_drop {M : Type} [AddCommMonoid M] (m j : ℕ) (hj : j ≤ m)
    (g : ℕ → M) (hvan : ∀ s, s < j → g s = 0) :
    ∑ s ∈ Finset.range m, g s = ∑ s ∈ Finset.Ico j m, g s := by
  rw [Finset.range_eq_Ico,
    ← Finset.sum_Ico_consecutive _ (Nat.zero_le j) hj,
    Finset.sum_eq_zero (fun s hs => hvan s (Finset.mem_Ico.mp hs).2),
    zero_add]

theorem sum_mul_deltaR (m l : ℕ) (hlm : l < m) (f : ℕ → 𝕜) :
    ∑ s ∈ Finset.range m, f s * idMat s l = f l := by
  unfold idMat
  have h1 : ∀ s ∈ Finset.range m,
      f s * (if s = l then (1:𝕜) else 0) = if s = l then f s else 0 := by
    intro s _
    by_cases h : s = l <;> simp [h]
  rw [Finset.sum_congr rfl h1, Finset.sum_ite_eq' (Finset.range m) l f,
    if_pos (Finset.mem_range.mpr hlm)]

theorem sum_deltaL_mul (m i : ℕ) (him : i < m) (f : ℕ → 𝕜) :
    ∑ r ∈ Finset.range m, idMat i r * f r = f i := by
  unfold idMat
  have h1 : ∀ r ∈ Finset.range m,
      (if i = r then (1:𝕜) else 0) * f r = if i = r then f r else 0 := by
    intro r _
    by_cases h : i = r <;> simp [h]
  rw [Finset.sum_congr rfl h1, Finset.sum_ite_eq (Finset.range m) i f,
    if_pos (Finset.mem_range.mpr him)]

theorem hdot_congr (m : ℕ) (p p' q q' : Vec 𝕜)
    (hp : ∀ r, r < m → p r = p' r) (hq : ∀ r, r < m → q r = q' r) :
    hdot m p q = hdot m p' q' := by
  unfold hdot
  apply Finset.sum_congr rfl
  intro r hr
  rw [hp r (Finset.mem_range.mp hr), hq r (Finset.mem_range.mp hr)]

theorem mulVecN_congr (m : ℕ) (A : Mat 𝕜) (w w' : Vec 𝕜)
    (hw : ∀ r, r < m → w r = w' r) (i : ℕ) :
    mulVecN m A w i = mulVecN m A w' i := by
  unfold mulVecN
  apply Finset.sum_congr rfl
  intro r hr
  rw [hw r (Finset.mem_range.mp hr)]

theorem hdot_self (m : ℕ) (u : Vec 𝕜) :
    hdot m u u = ((vecNormSq m u : ℝ) : 𝕜) := by
  unfold hdot vecNormSq cj
  rw [RCLike.ofReal_sum]
  apply Finset.sum_congr rfl
  intro r _
  rw [RCLike.conj_mul, RCLike.ofReal_pow]

theorem hdot_swap (m : ℕ) (p q : Vec 𝕜) : hdot m p q = cj (hdot m q p) := by
  unfold hdot cj
  rw [map_sum]
  apply Finset.sum_congr rfl
  intro r _
  rw [map_mul, RCLike.conj_conj]
  ring

theorem reflMat_mulVec (m : ℕ) (β : ℝ) (u w : Vec 𝕜) (i : ℕ) (him : i < m) :
    mulVecN m (reflMat β u) w i
      = w i - ((β : ℝ) : 𝕜) * u i * hdot m u w := by
  unfold mulVecN reflMat hdot
  have h1 : ∀ r ∈ Finset.range m,
      (idMat i r - ((β : ℝ) : 𝕜) * u i * cj (u r)) * w r
        = idMat i r * w r - ((β : ℝ) : 𝕜) * u i * (cj (u r) * w r) := by
    intro r _
    ring
  rw [Finset.sum_congr rfl h1, Finset.sum_sub_distrib,
    sum_deltaL_mul m i him, ← Finset.mul_sum]

theorem hdot_sub_smul_right (m : ℕ) (u q : Vec 𝕜) (b : 𝕜) :
    hdot m u (fun i => q i - b * u i) = hdot m u q - b * hdot m u u := by
  unfold hdot
  have h1 : ∀ r ∈ Finset.range m,
      cj (u r) * (q r - b * u r)
        = cj (u r) * q r - b * (cj (u r) * u r) := by
    intro r _
    ring
  rw [Finset.sum_congr rfl h1, Finset.sum_sub_distrib, ← Finset.mul_sum]

theorem hdot_expand (m : ℕ) (p q u : Vec 𝕜) (a b : 𝕜) :
    hdot m (fun i => p i - a * u i) (fun i => q i - b * u i)
      = hdot m p q - b * hdot m p u - cj a * hdot m u q
        + cj a * b * hdot m u u := by
  unfold hdot cj
  have h1 : ∀ r ∈ Finset.range m,
      (starRingEnd 𝕜) (p r - a * u r) * (q r - b * u r)
        = (starRingEnd 𝕜) (p r) * q r
          - b * ((starRingEnd 𝕜) (p r) * u r)
          - (starRingEnd 𝕜) a * ((starRingEnd 𝕜) (u r) * q r)
          + (starRingEnd 𝕜) a * b * ((starRingEnd 𝕜) (u r) * u r) := by
    intro r _
    rw [map_sub, map_mul]
    ring
  rw [Finset.sum_congr rfl h1, Finset.sum_add_distrib,
    Finset.sum_sub_distrib, Finset.sum_sub_distrib,
    ← Finset.mul_sum, ← Finset.mul_sum, ← Finset.mul_sum]

theorem reflOK_cast (m : ℕ) (β : ℝ) (u : Vec 𝕜) (hok : reflOK m β u) :
    ((β : ℝ) : 𝕜) = 0
      ∨ ((β : ℝ) : 𝕜) * ((vecNormSq m u : ℝ) : 𝕜) = 2 := by
  rcases hok with h | h
  · left
    rw [h]
    simp
  · right
    have h2 := congrArg (fun r : ℝ => ((r : ℝ) : 𝕜)) h
    push_cast at h2
    exact_mod_cast h2

theorem reflMat_hdot_after (m : ℕ) (β : ℝ) (u w1 w2 : Vec 𝕜)
    (hok : reflOK m β u) :
    hdot m (mulVecN m (reflMat β u) w1) (mulVecN m (reflMat β u) w2)
      = hdot m w1 w2 := by
  have hc1 : ∀ r, r < m → mulVecN m (reflMat β u) w1 r
      = w1 r - (((β : ℝ) : 𝕜) * hdot m u w1) * u r := by
    intro r hr
    rw [reflMat_mulVec m β u w1 r hr]
    ring
  have hc2 : ∀ r, r < m → mulVecN m (reflMat β u) w2 r
      = w2 r - (((β : ℝ) : 𝕜) * hdot m u w2) * u r := by
    intro r hr
    rw [reflMat_mulVec m β u w2 r hr]
    ring
  rw [hdot_congr m _ (fun i => w1 i - (((β : ℝ) : 𝕜) * hdot m u w1) * u i)
    _ (fun i => w2 i - (((β : ℝ) : 𝕜) * hdot m u w2) * u i) hc1 hc2]
  rw [hdot_expand, hdot_self, hdot_swap m w1 u]
  unfold cj
  rw [map_mul, RCLike.conj_ofReal]
  rcases reflOK_cast m β u hok with h | h
  · rw [h]
    ring
  · linear_combination (((β : ℝ) : 𝕜) * (starRingEnd 𝕜) (hdot m u w1)
      * hdot m u w2) * h

theorem reflMat_invol (m : ℕ) (β : ℝ) (u : Vec 𝕜) (hok : reflOK m β u)
    (w : Vec 𝕜) (i : ℕ) (him : i < m) :
    mulVecN m (reflMat β u) (mulVecN m (reflMat β u) w) i = w i := by
  rw [reflMat_mulVec m β u _ i him, reflMat_mulVec m β u w i him]
  have hc : ∀ r, r < m → mulVecN m (reflMat β u) w r
      = w r - (((β : ℝ) : 𝕜) * hdot m u w) * u r := by
    intro r hr
    rw [reflMat_mulVec m β u w r hr]
    ring
  have hinner : hdot m u (mulVecN m (reflMat β u) w)
      = hdot m u w - (((β : ℝ) : 𝕜) * hdot m u w)
        * ((vecNormSq m u : ℝ) : 𝕜) := by
    rw [hdot_congr m u u _
      (fun r => w r - (((β : ℝ) : 𝕜) * hdot m u w) * u r)
      (fun _ _ => rfl) hc]
    rw [hdot_sub_smul_right, hdot_self]
  rw [hinner]
  rcases reflOK_cast m β u hok with h | h
  · rw [h]
    ring
  · linear_combination (((β : ℝ) : 𝕜) * u i * hdot m u w) * h

theorem reflMat_absorb (m jj : ℕ) (β : ℝ) (u w : Vec 𝕜)
    (hu : ∀ r, r < jj → u r = 0) (hw : ∀ r, jj ≤ r → r < m → w r = 0)
    (i : ℕ) (him : i < m) :
    mulVecN m (reflMat β u) w i = w i := by
  rw [reflMat_mulVec m β u w i him]
  have h0 : hdot m u w = 0 := by
    unfold hdot
    apply Finset.sum_eq_zero
    intro r hr
    rcases lt_or_ge r jj with h | h
    · rw [hu r h]
      simp [cj]
    · rw [hw r h (Finset.mem_range.mp hr)]
      ring
  rw [h0]
  ring

theorem applyFwd_succ_shift (m : ℕ) (βf : ℕ → ℝ) (u : ℕ → Vec 𝕜)
    (j k : ℕ) (w : Vec 𝕜) :
    applyFwd m βf u j (k + 1) w
      = applyFwd m βf u (j + 1) k
          (mulVecN m (reflMat (βf j) (u j)) w) := by
  induction k with
  | zero => rfl
  | succ k ih =>
    show mulVecN m (reflMat (βf (j + (k + 1)))
        (u (j + (k + 1)))) (applyFwd m βf u j (k + 1) w) = _
    rw [ih, show j + (k + 1) = j + 1 + k from by omega]
    rfl

theorem applyFwd_split (m : ℕ) (βf : ℕ → ℝ) (u : ℕ → Vec 𝕜)
    (j k1 k2 : ℕ) (w : Vec 𝕜) :
    applyFwd m βf u j (k1 + k2) w
      = applyFwd m βf u (j + k1) k2 (applyFwd m βf u j k1 w) := by
  induction k2 with
  | zero => rfl
  | succ k2 ih =>
    show mulVecN m (reflMat (βf (j + (k1 + k2))) (u (j + (k1 + k2))))
        (applyFwd m βf u j (k1 + k2) w) = _
    rw [ih, show j + (k1 + k2) = j + k1 + k2 from by omega]
    rfl

theorem applyFwd_congr (m : ℕ) (βf : ℕ → ℝ) (u : ℕ → Vec 𝕜) (j k : ℕ)
    (w w' : Vec 𝕜) (hw : ∀ r, r < m → w r = w' r) :
    ∀ i, i < m → applyFwd m βf u j k w i = applyFwd m βf u j k w' i := by
  induction k with
  | zero => exact hw
  | succ k ih =>
    intro i _
    show mulVecN m _ (applyFwd m βf u j k w) i
      = mulVecN m _ (applyFwd m βf u j k w') i
    exact mulVecN_congr m _ _ _ ih i

theorem applyBwd_congr (m : ℕ) (βf : ℕ → ℝ) (u : ℕ → Vec 𝕜) (k : ℕ) :
    ∀ (j : ℕ) (w w' : Vec 𝕜), (∀ r, r < m → w r = w' r) →
    ∀ i, i < m → applyBwd m βf u j k w i = applyBwd m βf u j k w' i := by
  induction k with
  | zero => exact fun j w w' hw i him => hw i him
  | succ k ih =>
    intro j w w' hw i _
    show mulVecN m _ (applyBwd m βf u (j + 1) k w) i
      = mulVecN m _ (applyBwd m βf u (j + 1) k w') i
    exact mulVecN_congr m _ _ _ (fun r hr => ih (j + 1) w w' hw r hr) i

theorem applyBwd_applyFwd (m : ℕ) (βf : ℕ → ℝ) (u : ℕ → Vec 𝕜) (k : ℕ) :
    ∀ (j : ℕ) (w : Vec 𝕜),
    (∀ jx, j ≤ jx → jx < j + k → reflOK m (βf jx) (u jx)) →
    ∀ i, i < m →
      applyBwd m βf u j k (applyFwd m βf u j k w) i = w i := by
  induction k with
  | zero => exact fun j w _ i _ => rfl
  | succ k ih =>
    intro j w hok i him
    rw [applyFwd_succ_shift]
    show mulVecN m (reflMat (βf j) (u j))
      (applyBwd m βf u (j + 1) k
        (applyFwd m βf u (j + 1) k
          (mulVecN m (reflMat (βf j) (u j)) w))) i = w i
    have hin : ∀ r, r < m →
        applyBwd m βf u (j + 1) k
          (applyFwd m βf u (j + 1) k
            (mulVecN m (reflMat (βf j) (u j)) w)) r
        = mulVecN m (reflMat (βf j) (u j)) w r := by
      intro r hr
      exact ih (j + 1) _ (fun jx h1 h2 => hok jx (by omega) (by omega)) r hr
    rw [mulVecN_congr m _ _ _ hin i]
    exact reflMat_invol m (βf j) (u j) (hok j le_rfl (by omega)) w i him

theorem applyBwd_isometry (m : ℕ) (βf : ℕ → ℝ) (u : ℕ → Vec 𝕜) (k : ℕ) :
    ∀ (j : ℕ) (w1 w2 : Vec 𝕜),
    (∀ jx, j ≤ jx → jx < j + k → reflOK m (βf jx) (u jx)) →
    hdot m (applyBwd m βf u j k w1) (applyBwd m βf u j k w2)
      = hdot m w1 w2 := by
  induction k with
  | zero => exact fun j w1 w2 _ => rfl
  | succ k ih =>
    intro j w1 w2 hok
    show hdot m (mulVecN m (reflMat (βf j) (u j)) _)
      (mulVecN m (reflMat (βf j) (u j)) _) = _
    rw [reflMat_hdot_after m (βf j) (u j) _ _ (hok j le_rfl (by omega))]
    exact ih (j + 1) w1 w2 (fun jx h1 h2 => hok jx (by omega) (by omega))

theorem applyFwd_absorb (m : ℕ) (βf : ℕ → ℝ) (u : ℕ → Vec 𝕜) (j k : ℕ)
    (w : Vec 𝕜)
    (hu : ∀ jx, j ≤ jx → jx < j + k → ∀ r, r < jx → u jx r = 0)
    (hw : ∀ r, j ≤ r → r < m → w r = 0) :
    ∀ i, i < m → applyFwd m βf u j k w i = w i := by
  induction k with
  | zero => exact fun i _ => rfl
  | succ k ih =>
    intro i him
    show mulVecN m (reflMat (βf (j + k)) (u (j + k)))
      (applyFwd m βf u j k w) i = w i
    have h1 : ∀ r, r < m → applyFwd m βf u j k w r = w r :=
      ih (fun jx ha hb r hr => hu jx ha (by omega) r hr)
    rw [mulVecN_congr m _ _ _ h1 i]
    exact reflMat_absorb m (j + k) (βf (j + k)) (u (j + k)) w
      (hu (j + k) (by omega) (by omega))
      (fun r hr hrm => hw r (by omega) hrm) i him

theorem mulVecN_matMulN (m : ℕ) (A B : Mat 𝕜) (w : Vec 𝕜) (i : ℕ) :
    mulVecN m (matMulN m A B) w i
      = mulVecN m A (fun s => mulVecN m B w s) i := by
  unfold mulVecN matMulN
  have h1 : ∀ r ∈ Finset.range m,
      (∑ s ∈ Finset.range m, A i s * B s r) * w r
        = ∑ s ∈ Finset.range m, A i s * (B s r * w r) := by
    intro r _
    rw [Finset.sum_mul]
    apply Finset.sum_congr rfl
    intro s _
    ring
  rw [Finset.sum_congr rfl h1, Finset.sum_comm]
  apply Finset.sum_congr rfl
  intro s _
  rw [Finset.mul_sum]

theorem Eprod_mulVec (m : ℕ) (βf : ℕ → ℝ) (u : ℕ → Vec 𝕜) (k : ℕ) :
    ∀ (j : ℕ) (w : Vec 𝕜) (i : ℕ), i < m →
      mulVecN m (Eprod m βf u j k) w i = applyBwd m βf u j k w i := by
  induction k with
  | zero =>
    intro j w i him
    show mulVecN m idMat w i = w i
    unfold mulVecN
    exact sum_deltaL_mul m i him w
  | succ k ih =>
    intro j w i him
    show mulVecN m (matMulN m (reflMat (βf j) (u j))
      (Eprod m βf u (j + 1) k)) w i = _
    rw [mulVecN_matMulN]
    show mulVecN m (reflMat (βf j) (u j)) _ i
      = mulVecN m (reflMat (βf j) (u j)) _ i
    exact mulVecN_congr m _ _ _ (fun r hr => ih (j + 1) w r hr) i

theorem Eprod_col_id (m : ℕ) (βf : ℕ → ℝ) (u : ℕ → Vec 𝕜) (k : ℕ) :
    ∀ (j : ℕ),
    (∀ jx, j ≤ jx → jx < j + k → ∀ r, r < jx → u jx r = 0) →
    ∀ l, l < j → l < m → ∀ i, Eprod m βf u j k i l = idMat i l := by
  induction k with
  | zero => exact fun j _ l _ _ i => rfl
  | succ k ih =>
    intro j hu l hl hlm i
    show matMulN m (reflMat (βf j) (u j)) (Eprod m βf u (j + 1) k) i l = _
    unfold matMulN
    have h1 : ∀ s ∈ Finset.range m,
        reflMat (βf j) (u j) i s * Eprod m βf u (j + 1) k s l
          = reflMat (βf j) (u j) i s * idMat s l := by
      intro s _
      rw [ih (j + 1) (fun jx ha hb r hr => hu jx (by omega) (by omega) r hr)
        l (by omega) hlm s]
    rw [Finset.sum_congr rfl h1, sum_mul_deltaR m l hlm]
    unfold reflMat
    rw [hu j le_rfl (by omega) l hl]
    simp [cj]

/-- The working matrix of the factored QR driver after `j` columns. -/
noncomputable def Hstate (m : ℕ) (A : Mat 𝕜) (j : ℕ) : Mat 𝕜 :=
  (houseQRFactoredAux m A j).1

/-- The pivot subcolumn `H[j:, j]` fed to `house` at step `j`. -/
noncomputable def pivotVec (m : ℕ) (A : Mat 𝕜) (j : ℕ) : Vec 𝕜 :=
  fun i => Hstate m A j (j + i) j

/-- The Householder pair computed by `house` at step `j`. -/
noncomputable def stepHouse (m : ℕ) (A : Mat 𝕜) (j : ℕ) : Vec 𝕜 × ℝ :=
  house (m - j) (pivotVec m A j)

/-- The step-`j` Householder vector padded to full height. -/
noncomputable def ufam (m : ℕ) (A : Mat 𝕜) (j : ℕ) : Vec 𝕜 :=
  upad j (stepHouse m A j).1

/-- The step-`j` Householder scale. -/
noncomputable def betafam (m : ℕ) (A : Mat 𝕜) (j : ℕ) : ℝ :=
  (stepHouse m A j).2

/-- Non-degeneracy of the factorization of `A`: at every elimination
step the pivot subcolumn has a nonzero leading entry or a zero tail, so
`house` never divides by its zero pivot (compare `houseDividesByZero`). -/
noncomputable def GoodPivots (m n : ℕ) (A : Mat 𝕜) : Prop :=
  ∀ j, j < n →
    pivotVec m A j 0 ≠ 0 ∨ x2norm (m - j) (pivotVec m A j) = 0

theorem Hstate_succ (m : ℕ) (A : Mat 𝕜) (j : ℕ) :
    Hstate m A (j + 1) = (houseStep m j (Hstate m A j)).1 := rfl

theorem hdot_upad (m j : ℕ) (hj : j ≤ m) (v w : Vec 𝕜) :
    hdot m (upad j v) w
      = ∑ r ∈ Finset.range (m - j), cj (v r) * w (j + r) := by
  unfold hdot
  rw [sum_range_drop m j hj _ (fun s hs => by
    unfold upad
    rw [if_pos hs]
    simp [cj])]
  rw [sum_tail_shift]
  apply Finset.sum_congr rfl
  intro r _
  unfold upad
  rw [if_neg (by omega), Nat.add_sub_cancel_left]

theorem vecNormSq_upad (m j : ℕ) (hj : j ≤ m) (v : Vec 𝕜) :
    vecNormSq m (upad j v) = vecNormSq (m - j) v := by
  unfold vecNormSq
  rw [sum_range_drop m j hj _ (fun s hs => by
    unfold upad
    rw [if_pos hs]
    simp)]
  rw [sum_tail_shift]
  apply Finset.sum_congr rfl
  intro r _
  unfold upad
  rw [if_neg (by omega), Nat.add_sub_cancel_left]

theorem Hstate_store (m : ℕ) (A : Mat 𝕜) (j : ℕ) (hjm : j < m) (i : ℕ)
    (hij : j < i) :
    Hstate m A (j + 1) i j = (stepHouse m A j).1 (i - j) := by
  rw [Hstate_succ]
  unfold houseStep
  simp only
  rw [if_pos ⟨hjm, trivial, hij⟩]
  rfl

theorem Hstate_frozen_step (m : ℕ) (A : Mat 𝕜) (j l : ℕ) (hl : l < j)
    (i : ℕ) : Hstate m A (j + 1) i l = Hstate m A j i l := by
  rw [Hstate_succ]
  unfold houseStep
  simp only
  rw [if_neg (by omega), if_neg (by omega)]

theorem Hstate_frozen (m : ℕ) (A : Mat 𝕜) (j k : ℕ) (hjk : j ≤ k)
    (l : ℕ) (hl : l < j) (i : ℕ) :
    Hstate m A k i l = Hstate m A j i l := by
  induction k with
  | zero => omega
  | succ k ih =>
    rcases Nat.eq_or_lt_of_le hjk with h | h
    · rw [h]
    · rw [Hstate_frozen_step m A k l (by omega) i, ih (by omega)]

theorem Hstate_update (m : ℕ) (A : Mat 𝕜) (j l : ℕ) (hjl : j ≤ l)
    (hjm : j ≤ m) (i : ℕ) (him : i < m)
    (hne : ¬(l = j ∧ j + 1 ≤ i)) :
    Hstate m A (j + 1) i l
      = mulVecN m (reflMat (betafam m A j) (ufam m A j))
          (fun s => Hstate m A j s l) i := by
  rw [Hstate_succ]
  unfold houseStep
  simp only
  rw [if_neg (by tauto)]
  rw [reflMat_mulVec m _ _ _ i him]
  unfold betafam ufam stepHouse pivotVec
  rw [hdot_upad m j hjm]
  by_cases hij : j ≤ i
  · rw [if_pos ⟨hij, hjl⟩]
    unfold house_leftmult sliceMat
    rw [Nat.add_sub_cancel' hij, Nat.add_sub_cancel' hjl]
    unfold upad
    rw [if_neg (by omega)]
  · rw [if_neg (by tauto)]
    unfold upad
    rw [if_pos (by omega)]
    ring

theorem betas_final (m : ℕ) (A : Mat 𝕜) (n j : ℕ) (hj : j < n) :
    (houseQRFactoredAux m A n).2 j = betafam m A j := by
  induction n with
  | zero => omega
  | succ n ih =>
    show (if j = n then (houseStep m n (Hstate m A n)).2
      else (houseQRFactoredAux m A n).2 j) = _
    by_cases h : j = n
    · rw [if_pos h, h]
      rfl
    · rw [if_neg h, ih (by omega)]

theorem Hstate_wcol (m : ℕ) (A : Mat 𝕜) (l : ℕ) :
    ∀ (j : ℕ), j ≤ l → j ≤ m → ∀ i, i < m →
    Hstate m A j i l
      = applyFwd m (betafam m A) (ufam m A) 0 j (fun r => A r l) i := by
  intro j
  induction j with
  | zero => intro _ _ i _; rfl
  | succ j ih =>
    intro hjl hjm i him
    rw [Hstate_update m A j l (by omega) (by omega) i him (by omega)]
    simp only [applyFwd, Nat.zero_add]
    exact mulVecN_congr m _ _ _
      (fun r hr => ih (by omega) (by omega) r hr) i

theorem reflOK_fam (m n : ℕ) (A : Mat 𝕜) (hnm : n ≤ m)
    (hgood : GoodPivots m n A) (j : ℕ) (hj : j < n) :
    reflOK m (betafam m A j) (ufam m A j) := by
  have hk : 0 < m - j := by omega
  rcases house_beta_cases (m - j) (pivotVec m A j) hk (hgood j hj) with h | h
  · left
    exact h
  · right
    unfold betafam ufam stepHouse
    rw [vecNormSq_upad m j (by omega)]
    exact h

theorem ufam_vanish (m : ℕ) (A : Mat 𝕜) (j : ℕ) :
    ∀ r, r < j → ufam m A j r = 0 := by
  intro r hr
  unfold ufam upad
  rw [if_pos hr]

theorem Hchain_zero_below (m n : ℕ) (A : Mat 𝕜) (hnm : n ≤ m)
    (hgood : GoodPivots m n A) (j : ℕ) (hj : j < n) :
    ∀ i, j < i → i < m →
      applyFwd m (betafam m A) (ufam m A) 0 (j + 1)
        (fun r => A r j) i = 0 := by
  intro i hij him
  simp only [applyFwd, Nat.zero_add]
  rw [mulVecN_congr m _ _ (fun s => Hstate m A j s j)
    (fun r hr => (Hstate_wcol m A j j le_rfl (by omega) r hr).symm) i]
  rw [reflMat_mulVec m _ _ _ i him]
  unfold betafam ufam stepHouse
  rw [hdot_upad m j (by omega)]
  unfold upad
  rw [if_neg (by omega)]
  have hP := house_papply_tail (m - j) (pivotVec m A j) (hgood j hj)
    (i - j) (by omega) (by omega)
  unfold housePapply at hP
  have h1 : Hstate m A j i j = pivotVec m A j (i - j) := by
    unfold pivotVec
    rw [Nat.add_sub_cancel' (by omega : j ≤ i)]
  rw [h1]
  exact hP

theorem Hchain_Rcol (m n : ℕ) (A : Mat 𝕜) (hnm : n ≤ m)
    (hgood : GoodPivots m n A) (l : ℕ) (hl : l < n) :
    ∀ i, i < m →
      applyFwd m (betafam m A) (ufam m A) 0 n (fun r => A r l) i
        = triu (Hstate m A n) i l := by
  intro i him
  have h0 : applyFwd m (betafam m A) (ufam m A) 0 n (fun r => A r l) i
      = applyFwd m (betafam m A) (ufam m A) 0
          ((l + 1) + (n - (l + 1))) (fun r => A r l) i := by
    rw [show (l + 1) + (n - (l + 1)) = n from by omega]
  rw [h0, applyFwd_split]
  simp only [Nat.zero_add]
  rw [applyFwd_absorb m (betafam m A) (ufam m A) (l + 1) (n - (l + 1)) _
    (fun jx ha hb r hr => ufam_vanish m A jx r hr)
    (fun r h1 h2 => Hchain_zero_below m n A hnm hgood l hl r (by omega) h2)
    i him]
  simp only [applyFwd, Nat.zero_add]
  rw [mulVecN_congr m _ _ (fun s => Hstate m A l s l)
    (fun r hr => (Hstate_wcol m A l l le_rfl (by omega) r hr).symm) i]
  by_cases hil : i ≤ l
  · rw [← Hstate_update m A l l le_rfl (by omega) i him (by omega)]
    unfold triu
    rw [if_pos hil, Hstate_frozen m A (l + 1) n (by omega) l (by omega) i]
  · unfold triu
    rw [if_neg hil]
    have h2 := Hchain_zero_below m n A hnm hgood l hl i (by omega) him
    simp only [applyFwd, Nat.zero_add] at h2
    rw [mulVecN_congr m _ _ (fun s => Hstate m A l s l)
      (fun r hr => (Hstate_wcol m A l l le_rfl (by omega) r hr).symm) i] at h2
    exact h2

theorem qloop_eq_Eprod (m n : ℕ) (h : Mat 𝕜) (βs βf : ℕ → ℝ)
    (uf : ℕ → Vec 𝕜) (hnm : n ≤ m)
    (hβ : ∀ j, j < n → βs j = βf j)
    (hvan : ∀ j, j < n → ∀ r, r < j → uf j r = 0)
    (hu0 : ∀ j, j < n → uf j j = 1)
    (hutail : ∀ j, j < n → ∀ i, j < i → i < m → uf j i = h i j) :
    ∀ k, k ≤ n → ∀ i l, i < m → l < m →
      factoredToQAux m h βs n k i l = Eprod m βf uf (n - k) k i l := by
  intro k
  induction k with
  | zero => intro _ i l _ _; rfl
  | succ k ih =>
    intro hk i l him hlm
    have hjn : n - (k + 1) < n := by omega
    set j := n - (k + 1) with hjdef
    have hnk : n - k = j + 1 := by omega
    have hjm : j ≤ m := by omega
    have hP : ∀ ix lx, ix < m → lx < m →
        factoredToQAux m h βs n k ix lx = Eprod m βf uf (j + 1) k ix lx := by
      intro ix lx hix hlx
      rw [ih (by omega) ix lx hix hlx, hnk]
    have hRHS : Eprod m βf uf j (k + 1) i l
        = factoredToQAux m h βs n k i l
          - ((βf j : ℝ) : 𝕜) * uf j i
            * (∑ s ∈ Finset.range m,
                cj (uf j s) * factoredToQAux m h βs n k s l) := by
      show mulVecN m (reflMat (βf j) (uf j))
        (fun s => Eprod m βf uf (j + 1) k s l) i = _
      rw [reflMat_mulVec m _ _ _ i him]
      rw [show Eprod m βf uf (j + 1) k i l
          = factoredToQAux m h βs n k i l from (hP i l him hlm).symm]
      unfold hdot
      congr 1
      congr 1
      apply Finset.sum_congr rfl
      intro s hs
      dsimp only
      rw [hP s l (Finset.mem_range.mp hs) hlm]
    show qStep m h βs j (factoredToQAux m h βs n k) i l = _
    by_cases hl : j ≤ l
    · by_cases hi : j ≤ i
      · show (if j ≤ i ∧ j ≤ l then _ else _) = _
        rw [if_pos ⟨hi, hl⟩, hRHS]
        unfold house_leftmult sliceMat
        rw [Nat.add_sub_cancel' hi, Nat.add_sub_cancel' hl]
        have hv : (if i - j = 0 then (1:𝕜) else h (j + (i - j)) j)
            = uf j i := by
          by_cases hh : i = j
          · rw [if_pos (by omega), hh, hu0 j hjn]
          · rw [if_neg (by omega), Nat.add_sub_cancel' hi,
              hutail j hjn i (by omega) him]
        have hsum : (∑ r ∈ Finset.range (m - j),
              cj (if r = 0 then (1:𝕜) else h (j + r) j)
                * factoredToQAux m h βs n k (j + r) l)
            = ∑ s ∈ Finset.range m,
              cj (uf j s) * factoredToQAux m h βs n k s l := by
          rw [sum_range_drop m j hjm _ (fun s hs => by
            rw [hvan j hjn s hs]
            simp [cj])]
          rw [sum_tail_shift]
          apply Finset.sum_congr rfl
          intro r hr
          congr 1
          congr 1
          by_cases hr0 : r = 0
          · rw [hr0, if_pos rfl, Nat.add_zero, hu0 j hjn]
          · rw [if_neg hr0,
              hutail j hjn (j + r) (by omega)
                (by have := Finset.mem_range.mp hr; omega)]
        dsimp only
        rw [hv, hsum, hβ j hjn]
      · show (if j ≤ i ∧ j ≤ l then _ else _) = _
        rw [if_neg (by tauto), hRHS, hvan j hjn i (by omega)]
        ring
    · show (if j ≤ i ∧ j ≤ l then _ else _) = _
      rw [if_neg (by tauto)]
      rw [hP i l him hlm,
        Eprod_col_id m βf uf k (j + 1)
          (fun jx ha hb r hr => hvan jx (by omega) r hr) l (by omega) hlm i,
        Eprod_col_id m βf uf (k + 1) j
          (fun jx ha hb r hr => hvan jx (by omega) r hr) l (by omega) hlm i]

/-- The composition checked by the spec: `factored_to_QR` applied to the
output of the factored QR driver. -/
noncomputable def qrOfA (m n : ℕ) (A : Mat 𝕜) : Mat 𝕜 × Mat 𝕜 :=
  factored_to_QR m n (house_qr_factored m n A).1 (house_qr_factored m n A).2

theorem ufam_matches_final (m n : ℕ) (A : Mat 𝕜) (hnm : n ≤ m) (j : ℕ)
    (hj : j < n) :
    ufam m A j j = 1
      ∧ ∀ i, j < i → i < m → ufam m A j i = Hstate m A n i j := by
  constructor
  · unfold ufam upad
    rw [if_neg (by omega), Nat.sub_self]
    exact house_v0 _ _
  · intro i hij him
    unfold ufam upad
    rw [if_neg (by omega)]
    rw [Hstate_frozen m A (j + 1) n (by omega) j (by omega) i]
    rw [Hstate_store m A j (by omega) i hij]

theorem qrOfA_Q_eq_Eprod (m n : ℕ) (A : Mat 𝕜) (hnm : n ≤ m) :
    ∀ ix lx, ix < m → lx < m → (qrOfA m n A).1 ix lx
      = Eprod m (betafam m A) (ufam m A) 0 n ix lx := by
  intro ix lx hix hlx
  have h1 := qloop_eq_Eprod m n (Hstate m A n)
    (houseQRFactoredAux m A n).2 (betafam m A) (ufam m A) hnm
    (fun j hj => betas_final m A n j hj)
    (fun j hj => ufam_vanish m A j)
    (fun j hj => (ufam_matches_final m n A hnm j hj).1)
    (fun j hj => (ufam_matches_final m n A hnm j hj).2)
    n le_rfl ix lx hix hlx
  rw [Nat.sub_self] at h1
  exact h1

theorem hdot_basis (m i l : ℕ) (him : i < m) :
    hdot m (fun s => (idMat : Mat 𝕜) s i) (fun s => (idMat : Mat 𝕜) s l)
      = (idMat : Mat 𝕜) i l := by
  unfold hdot idMat
  have h1 : ∀ r ∈ Finset.range m,
      cj (if r = i then (1:𝕜) else 0) * (if r = l then (1:𝕜) else 0)
        = if r = i then (if i = l then (1:𝕜) else 0) else 0 := by
    intro r _
    by_cases h : r = i
    · subst h
      simp [cj]
    · simp [h, cj]
  rw [Finset.sum_congr rfl h1,
    Finset.sum_ite_eq' (Finset.range m) i
      (fun _ => if i = l then (1:𝕜) else 0),
    if_pos (Finset.mem_range.mpr him)]

theorem qrOfA_mul (m n : ℕ) (A : Mat 𝕜) (hnm : n ≤ m)
    (hgood : GoodPivots m n A) (i l : ℕ) (him : i < m) (hln : l < n) :
    matMulN m (qrOfA m n A).1 (qrOfA m n A).2 i l = A i l := by
  have hlm : l < m := lt_of_lt_of_le hln hnm
  unfold matMulN
  rw [Finset.sum_congr rfl (fun r hr => by
    rw [qrOfA_Q_eq_Eprod m n A hnm i r him (Finset.mem_range.mp hr)])]
  show mulVecN m (Eprod m (betafam m A) (ufam m A) 0 n)
    (fun r => triu (Hstate m A n) r l) i = A i l
  rw [Eprod_mulVec m (betafam m A) (ufam m A) n 0 _ i him]
  rw [applyBwd_congr m (betafam m A) (ufam m A) n 0 _
    (applyFwd m (betafam m A) (ufam m A) 0 n (fun s => A s l))
    (fun r hr => (Hchain_Rcol m n A hnm hgood l hln r hr).symm) i him]
  exact applyBwd_applyFwd m (betafam m A) (ufam m A) n 0 _
    (fun jx h0 hjx => reflOK_fam m n A hnm hgood jx (by omega)) i him

theorem qrOfA_unitary (m n : ℕ) (A : Mat 𝕜) (hnm : n ≤ m)
    (hgood : GoodPivots m n A) (i l : ℕ) (him : i < m) (hlm : l < m) :
    ∑ r ∈ Finset.range m, cj ((qrOfA m n A).1 r i) * (qrOfA m n A).1 r l
      = (idMat : Mat 𝕜) i l := by
  have hcol : ∀ lx, lx < m → ∀ r, r < m → (qrOfA m n A).1 r lx
      = applyBwd m (betafam m A) (ufam m A) 0 n
          (fun s => (idMat : Mat 𝕜) s lx) r := by
    intro lx hlx r hr
    rw [qrOfA_Q_eq_Eprod m n A hnm r lx hr hlx]
    have h1 : Eprod m (betafam m A) (ufam m A) 0 n r lx
        = mulVecN m (Eprod m (betafam m A) (ufam m A) 0 n)
            (fun s => (idMat : Mat 𝕜) s lx) r := by
      unfold mulVecN
      exact (sum_mul_deltaR m lx hlx
        (fun s => Eprod m (betafam m A) (ufam m A) 0 n r s)).symm
    rw [h1, Eprod_mulVec m (betafam m A) (ufam m A) n 0 _ r hr]
  show hdot m (fun r => (qrOfA m n A).1 r i)
    (fun r => (qrOfA m n A).1 r l) = (idMat : Mat 𝕜) i l
  rw [hdot_congr m _
    (applyBwd m (betafam m A) (ufam m A) 0 n
      (fun s => (idMat : Mat 𝕜) s i)) _
    (applyBwd m (betafam m A) (ufam m A) 0 n
      (fun s => (idMat : Mat 𝕜) s l))
    (fun r hr => hcol i him r hr) (fun r hr => hcol l hlm r hr)]
  rw [applyBwd_isometry m (betafam m A) (ufam m A) n 0 _ _
    (fun jx h0 hjx => reflOK_fam m n A hnm hgood jx (by omega))]
  exact hdot_basis m i l him

theorem qrOfA_triangular (m n : ℕ) (A : Mat 𝕜) (i l : ℕ) (hil : l < i) :
    (qrOfA m n A).2 i l = 0 := by
  show triu (house_qr_factored m n A).1 i l = 0
  unfold triu
  rw [if_neg (by omega)]

/-- Initial state of `factored_to_WY` before the loop:
`vj = [1.] + H[1:, 0]`, `W[:, 0] = betas[0] * vj`, `Y[:, 0] = vj`,
all other columns zero. -/
noncomputable def wyInit (m : ℕ) (H : Mat 𝕜) (βs : ℕ → ℝ) :
    Mat 𝕜 × Mat 𝕜 × Vec 𝕜 :=
  let vj : Vec 𝕜 := fun i => if i = 0 then 1 else H i 0
  (fun i c => if c = 0 then ((βs 0 : ℝ) : 𝕜) * vj i else 0,
   fun i c => if c = 0 then vj i else 0,
   vj)

/-- Body of the `factored_to_WY` loop at column `j`, acting on the
state `(W, Y, vj)`:
`vj[j+1:] = H[j+1:, j]`, `vj[j] = 1`;
`YHv = dag(Y[j:, :j]) @ vj[j:]`;
`z = W[:, :j] @ YHv`; `z[j:] += -vj[j:]`; `z = -betas[j] * z`;
`W[:, j] = z`; `Y[j:, j] = vj[j:]`. -/
noncomputable def wyStep (m : ℕ) (H : Mat 𝕜) (βs : ℕ → ℝ) (j : ℕ)
    (st : Mat 𝕜 × Mat 𝕜 × Vec 𝕜) : Mat 𝕜 × Mat 𝕜 × Vec 𝕜 :=
  let W := st.1
  let Y := st.2.1
  let vprev := st.2.2
  let vj : Vec 𝕜 := fun i =>
    if j + 1 ≤ i then H i j else if i = j then 1 else vprev i
  let YHv : Vec 𝕜 := fun c => ∑ i ∈ Finset.Ico j m, cj (Y i c) * vj i
  let z0 : Vec 𝕜 := fun i => ∑ c ∈ Finset.range j, W i c * YHv c
  let z1 : Vec 𝕜 := fun i => if j ≤ i then z0 i - vj i else z0 i
  let z : Vec 𝕜 := fun i => -((βs j : ℝ) : 𝕜) * z1 i
  (fun i c => if c = j then z i else W i c,
   fun i c => if c = j ∧ j ≤ i then vj i else Y i c,
   vj)

/-- State of the `factored_to_WY` loop after columns `1 .. k` have been
processed (`wyAux 0` is the state after the initialisation). -/
noncomputable def wyAux (m : ℕ) (H : Mat 𝕜) (βs : ℕ → ℝ) :
    ℕ → Mat 𝕜 × Mat 𝕜 × Vec 𝕜
  | 0 => wyInit m H βs
  | k + 1 => wyStep m H βs (k + 1) (wyAux m H βs k)

/-- Source `factored_to_WY(hbetalist)` for the `m x n` factored
representation: returns `[W, YH]` with `YH = dag(Y)`. -/
noncomputable def factored_to_WY (m n : ℕ) (H : Mat 𝕜) (βs : ℕ → ℝ) :
    Mat 𝕜 × Mat 𝕜 :=
  ((wyAux m H βs (n - 1)).1, dag (wyAux m H βs (n - 1)).2.1)

/-- Source `B_times_Q_WY(B, W, YH) = B - (B@W)@YH` for `B` of shape
`k x m` and `W`, `dag(YH)` of shape `m x n`. -/
noncomputable def B_times_Q_WY (m n : ℕ) (B W YH : Mat 𝕜) : Mat 𝕜 :=
  fun i l => B i l - matMulN n (matMulN m B W) YH i l

/-- Source `WY_to_Q(W, YH)`: recovers dense `Q` by applying the WY
representation to the identity. -/
noncomputable def WY_to_Q (m n : ℕ) (W YH : Mat 𝕜) : Mat 𝕜 :=
  B_times_Q_WY m n idMat W YH

theorem ucVec_zero (H : Mat 𝕜) (i : ℕ) :
    ucVec H 0 i = if i = 0 then 1 else H i 0 := by
  unfold ucVec
  rw [if_neg (Nat.not_lt_zero i)]

theorem wyAux_W_frozen (m : ℕ) (H : Mat 𝕜) (βs : ℕ → ℝ) (k c : ℕ)
    (hck : c ≤ k) (i : ℕ) :
    (wyAux m H βs k).1 i c = (wyAux m H βs c).1 i c := by
  induction k with
  | zero =>
    have hc0 : c = 0 := by omega
    rw [hc0]
  | succ k ih =>
    rcases Nat.eq_or_lt_of_le hck with h | h
    · rw [h]
    · show (if c = k + 1 then _ else (wyAux m H βs k).1 i c) = _
      rw [if_neg (by omega), ih (by omega)]

theorem wyAux_Y_future_zero (m : ℕ) (H : Mat 𝕜) (βs : ℕ → ℝ) (k c : ℕ)
    (h0 : 0 < c) (hkc : k < c) (i : ℕ) :
    (wyAux m H βs k).2.1 i c = 0 := by
  induction k with
  | zero =>
    show (if c = 0 then (if i = 0 then (1:𝕜) else H i 0) else 0) = 0
    rw [if_neg h0.ne']
  | succ k ih =>
    show (if c = k + 1 ∧ k + 1 ≤ i then
        (if k + 1 + 1 ≤ i then H i (k + 1)
          else if i = k + 1 then 1 else (wyAux m H βs k).2.2 i)
      else (wyAux m H βs k).2.1 i c) = 0
    rw [if_neg (by omega), ih (by omega)]

theorem wyAux_Y_col (m : ℕ) (H : Mat 𝕜) (βs : ℕ → ℝ) (k : ℕ) :
    ∀ c, c ≤ k → ∀ i, (wyAux m H βs k).2.1 i c = ucVec H c i := by
  induction k with
  | zero =>
    intro c hc i
    have hc0 : c = 0 := by omega
    subst hc0
    show (if (0:ℕ) = 0 then (if i = 0 then (1:𝕜) else H i 0) else 0)
      = ucVec H 0 i
    rw [if_pos rfl, ucVec_zero]
  | succ k ih =>
    intro c hc i
    show (if c = k + 1 ∧ k + 1 ≤ i then
        (if k + 1 + 1 ≤ i then H i (k + 1)
          else if i = k + 1 then 1 else (wyAux m H βs k).2.2 i)
      else (wyAux m H βs k).2.1 i c) = ucVec H c i
    by_cases hck : c = k + 1
    · by_cases hci : k + 1 ≤ i
      · rw [if_pos ⟨hck, hci⟩, hck]
        unfold ucVec
        by_cases hie : i = k + 1
        · rw [if_neg (by omega), if_pos hie, if_neg (by omega), if_pos hie]
        · rw [if_pos (by omega), if_neg (by omega), if_neg hie]
      · rw [if_neg (fun hand => hci hand.2),
          wyAux_Y_future_zero m H βs k c (by omega) (by omega) i, hck]
        unfold ucVec
        rw [if_pos (by omega)]
    · rw [if_neg (fun hand => hck hand.1), ih c (by omega) i]

theorem matMulN_assoc (K : ℕ) (A B C : Mat 𝕜) (i l : ℕ) :
    matMulN K (matMulN K A B) C i l = matMulN K A (matMulN K B C) i l := by
  unfold matMulN
  have h1 : ∀ r ∈ Finset.range K,
      (∑ s ∈ Finset.range K, A i s * B s r) * C r l
        = ∑ s ∈ Finset.range K, A i s * (B s r * C r l) := by
    intro r _
    rw [Finset.sum_mul]
    apply Finset.sum_congr rfl
    intro s _
    ring
  rw [Finset.sum_congr rfl h1, Finset.sum_comm]
  apply Finset.sum_congr rfl
  intro s _
  rw [Finset.mul_sum]

theorem Eprod_snoc (m : ℕ) (βf : ℕ → ℝ) (u : ℕ → Vec 𝕜) (k : ℕ) :
    ∀ j i l, i < m → l < m →
      Eprod m βf u j (k + 1) i l
        = matMulN m (Eprod m βf u j k)
            (reflMat (βf (j + k)) (u (j + k))) i l := by
  induction k with
  | zero =>
    intro j i l him hlm
    show matMulN m (reflMat (βf j) (u j)) idMat i l
      = matMulN m idMat (reflMat (βf (j + 0)) (u (j + 0))) i l
    unfold matMulN
    rw [sum_mul_deltaR m l hlm (fun s => reflMat (βf j) (u j) i s),
      sum_deltaL_mul m i him (fun r => reflMat (βf (j + 0)) (u (j + 0)) r l)]
    rfl
  | succ k ih =>
    intro j i l him hlm
    show matMulN m (reflMat (βf j) (u j))
      (Eprod m βf u (j + 1) (k + 1)) i l = _
    have h1 : ∑ s ∈ Finset.range m,
        reflMat (βf j) (u j) i s * Eprod m βf u (j + 1) (k + 1) s l
          = ∑ s ∈ Finset.range m, reflMat (βf j) (u j) i s
            * matMulN m (Eprod m βf u (j + 1) k)
                (reflMat (βf (j + 1 + k)) (u (j + 1 + k))) s l := by
      apply Finset.sum_congr rfl
      intro s hs
      rw [ih (j + 1) s l (Finset.mem_range.mp hs) hlm]
    show ∑ s ∈ Finset.range m,
      reflMat (βf j) (u j) i s * Eprod m βf u (j + 1) (k + 1) s l = _
    rw [h1]
    show matMulN m (reflMat (βf j) (u j))
      (matMulN m (Eprod m βf u (j + 1) k)
        (reflMat (βf (j + 1 + k)) (u (j + 1 + k)))) i l = _
    rw [← matMulN_assoc, show j + 1 + k = j + (k + 1) from by omega]
    rfl

theorem wyStep_Wcol (m : ℕ) (H : Mat 𝕜) (βs : ℕ → ℝ) (j : ℕ)
    (st : Mat 𝕜 × Mat 𝕜 × Vec 𝕜) (i : ℕ) :
    (wyStep m H βs j st).1 i j
      = -((βs j : ℝ) : 𝕜) *
        ((∑ c ∈ Finset.range j, st.1 i c *
            (∑ r ∈ Finset.Ico j m, cj (st.2.1 r c) * ucVec H j r))
          - ucVec H j i) := by
  have hvj : ∀ r, j ≤ r →
      (if j + 1 ≤ r then H r j else if r = j then 1 else st.2.2 r)
        = ucVec H j r := by
    intro r hr
    unfold ucVec
    by_cases h1 : r = j
    · rw [if_neg (by omega), if_pos h1, if_neg (by omega), if_pos h1]
    · rw [if_pos (by omega), if_neg (by omega), if_neg h1]
  show (if j = j then
      -((βs j : ℝ) : 𝕜) * (if j ≤ i then
        (∑ c ∈ Finset.range j, st.1 i c *
          (∑ r ∈ Finset.Ico j m, cj (st.2.1 r c)
            * (if j + 1 ≤ r then H r j else if r = j then 1 else st.2.2 r)))
        - (if j + 1 ≤ i then H i j else if i = j then 1 else st.2.2 i)
        else (∑ c ∈ Finset.range j, st.1 i c *
          (∑ r ∈ Finset.Ico j m, cj (st.2.1 r c)
            * (if j + 1 ≤ r then H r j else if r = j then 1 else st.2.2 r))))
    else st.1 i j) = _
  rw [if_pos rfl]
  have h2 : (∑ c ∈ Finset.range j, st.1 i c *
      (∑ r ∈ Finset.Ico j m, cj (st.2.1 r c)
        * (if j + 1 ≤ r then H r j else if r = j then 1 else st.2.2 r)))
      = ∑ c ∈ Finset.range j, st.1 i c *
          (∑ r ∈ Finset.Ico j m, cj (st.2.1 r c) * ucVec H j r) := by
    apply Finset.sum_congr rfl
    intro c _
    congr 1
    apply Finset.sum_congr rfl
    intro r hr
    rw [hvj r (Finset.mem_Ico.mp hr).1]
  by_cases hij : j ≤ i
  · rw [if_pos hij, hvj i hij, h2]
  · rw [if_neg hij, h2]
    have h3 : ucVec H j i = 0 := by
      unfold ucVec
      rw [if_pos (by omega)]
    rw [h3]
    ring

theorem wyAux_main (m : ℕ) (H : Mat 𝕜) (βs : ℕ → ℝ) (k : ℕ) :
    k + 1 ≤ m → ∀ i l, i < m → l < m →
      idMat i l - ∑ c ∈ Finset.range (k + 1),
          (wyAux m H βs k).1 i c * cj ((wyAux m H βs k).2.1 l c)
        = Eprod m βs (ucVec H) 0 (k + 1) i l := by
  induction k with
  | zero =>
    intro _ i l him hlm
    rw [Finset.sum_range_one]
    have hW : (wyAux m H βs 0).1 i 0
        = ((βs 0 : ℝ) : 𝕜) * ucVec H 0 i := by
      show (if (0:ℕ) = 0 then ((βs 0 : ℝ) : 𝕜)
        * (if i = 0 then 1 else H i 0) else 0) = _
      rw [if_pos rfl, ucVec_zero]
    have hY : (wyAux m H βs 0).2.1 l 0 = ucVec H 0 l := by
      show (if (0:ℕ) = 0 then (if l = 0 then (1:𝕜) else H l 0) else 0) = _
      rw [if_pos rfl, ucVec_zero]
    rw [hW, hY]
    show _ = matMulN m (reflMat (βs 0) (ucVec H 0)) idMat i l
    unfold matMulN
    rw [sum_mul_deltaR m l hlm (fun s => reflMat (βs 0) (ucVec H 0) i s)]
    unfold reflMat
    ring
  | succ k ih =>
    intro hkm i l him hlm
    have hih : ∀ ix lx, ix < m → lx < m →
        Eprod m βs (ucVec H) 0 (k + 1) ix lx
          = idMat ix lx - ∑ c ∈ Finset.range (k + 1),
              (wyAux m H βs k).1 ix c * cj ((wyAux m H βs k).2.1 lx c) :=
      fun ix lx hix hlx => (ih (by omega) ix lx hix hlx).symm
    rw [Finset.sum_range_succ]
    have hsum0 : ∑ c ∈ Finset.range (k + 1),
        (wyAux m H βs (k + 1)).1 i c
          * cj ((wyAux m H βs (k + 1)).2.1 l c)
          = ∑ c ∈ Finset.range (k + 1),
        (wyAux m H βs k).1 i c * cj ((wyAux m H βs k).2.1 l c) := by
      apply Finset.sum_congr rfl
      intro c hc
      have hc1 := Finset.mem_range.mp hc
      have hW : (wyAux m H βs (k + 1)).1 i c = (wyAux m H βs k).1 i c := by
        show (if c = k + 1 then _ else (wyAux m H βs k).1 i c) = _
        rw [if_neg (by omega)]
      rw [hW, wyAux_Y_col m H βs (k + 1) c (by omega) l,
        wyAux_Y_col m H βs k c (by omega) l]
    rw [hsum0]
    have hYnew : (wyAux m H βs (k + 1)).2.1 l (k + 1)
        = ucVec H (k + 1) l :=
      wyAux_Y_col m H βs (k + 1) (k + 1) le_rfl l
    have hPu : ∑ s ∈ Finset.range m,
        Eprod m βs (ucVec H) 0 (k + 1) i s * ucVec H (k + 1) s
          = ucVec H (k + 1) i
            - ∑ c ∈ Finset.range (k + 1), (wyAux m H βs k).1 i c
              * (∑ s ∈ Finset.range m,
                  cj ((wyAux m H βs k).2.1 s c) * ucVec H (k + 1) s) := by
      rw [Finset.sum_congr rfl (fun s hs => by
        rw [hih i s him (Finset.mem_range.mp hs)])]
      have h5 : ∀ s ∈ Finset.range m,
          (idMat i s - ∑ c ∈ Finset.range (k + 1),
              (wyAux m H βs k).1 i c * cj ((wyAux m H βs k).2.1 s c))
            * ucVec H (k + 1) s
          = idMat i s * ucVec H (k + 1) s
            - ∑ c ∈ Finset.range (k + 1),
                (wyAux m H βs k).1 i c
                  * (cj ((wyAux m H βs k).2.1 s c) * ucVec H (k + 1) s) := by
        intro s _
        rw [sub_mul, Finset.sum_mul]
        congr 1
        apply Finset.sum_congr rfl
        intro c _
        ring
      rw [Finset.sum_congr rfl h5, Finset.sum_sub_distrib,
        sum_deltaL_mul m i him, Finset.sum_comm]
      congr 1
      apply Finset.sum_congr rfl
      intro c _
      rw [Finset.mul_sum]
    have hWnew : (wyAux m H βs (k + 1)).1 i (k + 1)
        = ((βs (k + 1) : ℝ) : 𝕜)
          * ∑ s ∈ Finset.range m,
              Eprod m βs (ucVec H) 0 (k + 1) i s * ucVec H (k + 1) s := by
      show (wyStep m H βs (k + 1) (wyAux m H βs k)).1 i (k + 1) = _
      rw [wyStep_Wcol m H βs (k + 1) (wyAux m H βs k) i]
      have h6 : ∀ c, (∑ r ∈ Finset.Ico (k + 1) m,
          cj ((wyAux m H βs k).2.1 r c) * ucVec H (k + 1) r)
            = ∑ r ∈ Finset.range m,
          cj ((wyAux m H βs k).2.1 r c) * ucVec H (k + 1) r := by
        intro c
        rw [sum_range_drop m (k + 1) (by omega) _ (fun s hs => by
          have h7 : ucVec H (k + 1) s = 0 := by
            unfold ucVec
            rw [if_pos hs]
          rw [h7]
          ring)]
      rw [Finset.sum_congr rfl (fun c _ => by rw [h6 c]), hPu]
      ring
    rw [hWnew, hYnew]
    rw [Eprod_snoc m βs (ucVec H) (k + 1) 0 i l him hlm, Nat.zero_add]
    have hexp : matMulN m (Eprod m βs (ucVec H) 0 (k + 1))
        (reflMat (βs (k + 1)) (ucVec H (k + 1))) i l
        = Eprod m βs (ucVec H) 0 (k + 1) i l
          - (((βs (k + 1) : ℝ) : 𝕜) * cj (ucVec H (k + 1) l))
            * ∑ s ∈ Finset.range m,
                Eprod m βs (ucVec H) 0 (k + 1) i s * ucVec H (k + 1) s := by
      unfold matMulN reflMat
      have h8 : ∀ s ∈ Finset.range m,
          Eprod m βs (ucVec H) 0 (k + 1) i s
            * (idMat s l - ((βs (k + 1) : ℝ) : 𝕜) * ucVec H (k + 1) s
                * cj (ucVec H (k + 1) l))
          = Eprod m βs (ucVec H) 0 (k + 1) i s * idMat s l
            - (((βs (k + 1) : ℝ) : 𝕜) * cj (ucVec H (k + 1) l))
              * (Eprod m βs (ucVec H) 0 (k + 1) i s
                  * ucVec H (k + 1) s) := by
        intro s _
        ring
      rw [Finset.sum_congr rfl h8, Finset.sum_sub_distrib,
        sum_mul_deltaR m l hlm, ← Finset.mul_sum]
    rw [hexp, hih i l him hlm]
    ring

theorem WYQ_eq (m n : ℕ) (H : Mat 𝕜) (βs : ℕ → ℝ) (hn : 0 < n)
    (hnm : n ≤ m) (i l : ℕ) (him : i < m) (hlm : l < m) :
    WY_to_Q m n (factored_to_WY m n H βs).1 (factored_to_WY m n H βs).2 i l
      = Eprod m βs (ucVec H) 0 n i l := by
  show idMat i l
      - matMulN n (matMulN m idMat (wyAux m H βs (n - 1)).1)
          (dag (wyAux m H βs (n - 1)).2.1) i l = _
  have h1 : matMulN n (matMulN m idMat (wyAux m H βs (n - 1)).1)
      (dag (wyAux m H βs (n - 1)).2.1) i l
      = ∑ c ∈ Finset.range n, (wyAux m H βs (n - 1)).1 i c
          * cj ((wyAux m H βs (n - 1)).2.1 l c) := by
    unfold matMulN dag
    apply Finset.sum_congr rfl
    intro c _
    congr 1
    exact sum_deltaL_mul m i him _
  rw [h1]
  have h2 := wyAux_main m H βs (n - 1) (by omega) i l him hlm
  rw [show n - 1 + 1 = n from by omega] at h2
  exact h2

theorem factoredQ_eq_Eprod (m n : ℕ) (h : Mat 𝕜) (βs : ℕ → ℝ)
    (hnm : n ≤ m) (i l : ℕ) (him : i < m) (hlm : l < m) :
    (factored_to_QR m n h βs).1 i l = Eprod m βs (ucVec h) 0 n i l := by
  have h1 := qloop_eq_Eprod m n h βs βs (ucVec h) hnm
    (fun j hj => rfl)
    (fun j hj r hr => by
      unfold ucVec
      rw [if_pos hr])
    (fun j hj => by
      unfold ucVec
      rw [if_neg (by omega), if_pos rfl])
    (fun j hj i2 hi2 him2 => by
      unfold ucVec
      rw [if_neg (by omega), if_neg (by omega)])
    n le_rfl i l him hlm
  rw [Nat.sub_self] at h1
  exact h1

theorem factored_to_WY_Wcol (m n : ℕ) (H : Mat 𝕜) (βs : ℕ → ℝ)
    (j : ℕ) (hj1 : 1 ≤ j) (hjn : j < n) (hjm : j ≤ m) (i : ℕ) :
    (factored_to_WY m n H βs).1 i j
      = ((βs j : ℝ) : 𝕜)
        * (ucVec H j i - ∑ c ∈ Finset.range j,
            (factored_to_WY m n H βs).1 i c
              * (∑ r ∈ Finset.range m,
                  (factored_to_WY m n H βs).2 c r * ucVec H j r)) := by
  rcases Nat.exists_eq_succ_of_ne_zero (by omega : j ≠ 0) with ⟨jp, rfl⟩
  have hW : (factored_to_WY m n H βs).1 i (jp + 1)
      = (wyAux m H βs (jp + 1)).1 i (jp + 1) :=
    wyAux_W_frozen m H βs (n - 1) (jp + 1) (by omega) i
  rw [hW]
  show (wyStep m H βs (jp + 1) (wyAux m H βs jp)).1 i (jp + 1) = _
  rw [wyStep_Wcol m H βs (jp + 1) (wyAux m H βs jp) i]
  have h2 : ∀ c, c < jp + 1 →
      (wyAux m H βs jp).1 i c * (∑ r ∈ Finset.Ico (jp + 1) m,
          cj ((wyAux m H βs jp).2.1 r c) * ucVec H (jp + 1) r)
        = (factored_to_WY m n H βs).1 i c
            * (∑ r ∈ Finset.range m,
                (factored_to_WY m n H βs).2 c r * ucVec H (jp + 1) r) := by
    intro c hc
    have hWc : (factored_to_WY m n H βs).1 i c
        = (wyAux m H βs jp).1 i c := by
      show (wyAux m H βs (n - 1)).1 i c = _
      rw [wyAux_W_frozen m H βs (n - 1) c (by omega) i,
        wyAux_W_frozen m H βs jp c (by omega) i]
    rw [hWc]
    congr 1
    rw [sum_range_drop m (jp + 1) hjm _ (fun s hs => by
      have h3 : ucVec H (jp + 1) s = 0 := by
        unfold ucVec
        rw [if_pos hs]
      rw [h3]
      ring)]
    apply Finset.sum_congr rfl
    intro r _
    congr 1
    show cj ((wyAux m H βs jp).2.1 r c) = cj ((wyAux m H βs (n - 1)).2.1 r c)
    rw [wyAux_Y_col m H βs jp c (by omega) r,
      wyAux_Y_col m H βs (n - 1) c (by omega) r]
  rw [Finset.sum_congr rfl (fun c hc => h2 c (Finset.mem_range.mp hc))]
  ring

/-- Python exceptions raised by the drivers; each constructor carries
the offending value the source interpolates into the message. -/
inductive PyError where
  | notImplementedError (msg : String)
  | valueErrorMode (mode : String)
  | valueErrorBlock (n_block : ℤ)
  | valueErrorS (s : ℤ)
  | typeError
deriving DecidableEq

/-- Result shapes of `house_qr`, one per mode family. -/
inductive QROut (𝕜 : Type) where
  | dense (Q R : Mat 𝕜)
  | factored (H : Mat 𝕜) (beta : ℕ → ℝ)
  | wy (W YH R : Mat 𝕜)

/-- Source `house_qr(A, mode)` for an `m x n` matrix.  The
`reduced`/`complete`/`r` modes delegate to the external dense-QR
collaborator `denseqr` (`jnp.linalg.qr`).  Otherwise: `n > m` raises
`NotImplementedError`; `factored` and `WY` run the custom algorithm;
any other mode raises `ValueError("Invalid mode: ", mode)`. -/
noncomputable def house_qr (denseqr : Mat 𝕜 → String → Mat 𝕜 × Mat 𝕜)
    (m n : ℕ) (A : Mat 𝕜) (mode : String) :
    Except PyError (QROut 𝕜) :=
  if mode = "reduced" ∨ mode = "complete" ∨ mode = "r" then
    Except.ok (QROut.dense (denseqr A mode).1 (denseqr A mode).2)
  else if n > m then
    Except.error (PyError.notImplementedError
      "n > m QR not implemented in factoredor WY mode.")
  else if mode = "factored" then
    Except.ok (QROut.factored (house_qr_factored m n A).1
      (house_qr_factored m n A).2)
  else if mode = "WY" then
    Except.ok (QROut.wy
      (factored_to_WY m n (house_qr_factored m n A).1
        (house_qr_factored m n A).2).1
      (factored_to_WY m n (house_qr_factored m n A).1
        (house_qr_factored m n A).2).2
      (triu (house_qr_factored m n A).1))
  else Except.error (PyError.valueErrorMode mode)

/-- Source `recursiveQR(A, n_block)` (via `__recursiveQR`) for an
`m x n` matrix, with the external reduced-mode dense-QR collaborator
`jqr` at the base case.  `n_block < 1` raises
`ValueError("n_block must be greater than 0; it was ", n_block)`. -/
noncomputable def recursiveQR (jqr : ℕ → ℕ → Mat 𝕜 → Mat 𝕜 × Mat 𝕜)
    (m : ℕ) (nb : ℤ) : (n : ℕ) → Mat 𝕜 →
    Except PyError (Mat 𝕜 × Mat 𝕜)
  | n, A =>
    if hb : nb < 1 then Except.error (PyError.valueErrorBlock nb)
    else if hn : (n : ℤ) ≤ nb then Except.ok (jqr m n A)
    else
      match recursiveQR jqr m nb (n / 2) A with
      | Except.error e => Except.error e
      | Except.ok (Q0, R00) =>
        let R01 : Mat 𝕜 := fun c l =>
          ∑ r ∈ Finset.range m, cj (Q0 r c) * A r (n / 2 + l)
        let A1 : Mat 𝕜 := fun i l => A i (n / 2 + l)
          - ∑ c ∈ Finset.range (n / 2), Q0 i c * R01 c l
        match recursiveQR jqr m nb (n - n / 2) A1 with
        | Except.error e => Except.error e
        | Except.ok (Q1, R11) =>
          Except.ok
            (fun i l => if l < n / 2 then Q0 i l else Q1 i (l - n / 2),
             fun i l =>
               if i < n / 2 then
                 (if l < n / 2 then R00 i l else R01 i (l - n / 2))
               else if l < n / 2 then 0 else R11 (i - n / 2) (l - n / 2))
  termination_by n _ => n
  decreasing_by
  · omega
  · omega

/-- Source `__block_svd_iteration(A, V, s)` with the external dense-QR
collaborator `jqr`; returns `[U, Sigma, V, err]`. -/
noncomputable def block_svd_iteration
    (jqr : ℕ → ℕ → Mat 𝕜 → Mat 𝕜 × Mat 𝕜) (m n s : ℕ) (A V : Mat 𝕜) :
    Mat 𝕜 × Vec 𝕜 × Mat 𝕜 × ℝ :=
  let U := (jqr m s (matMulN n A V)).1
  let Qr := (jqr n s (matMulN m (dag A) U)).1
  let Rr := (jqr n s (matMulN m (dag A) U)).2
  let Sigma : Vec 𝕜 := fun c => Rr c c
  let Vn := Qr
  (U, Sigma, Vn,
   Real.sqrt (∑ i ∈ Finset.range m, ∑ c ∈ Finset.range s,
     ‖matMulN n A Vn i c - U i c * Sigma c‖ ^ 2))

/-- The `while not done` loop of `block_power_svd`, with the remaining
iteration budget as fuel: the pass with `fuel` corresponds to iteration
`n_iter = max_iter - fuel + 1`, so `n_iter >= max_iter` is `fuel <= 1`.
The boolean records whether the max-iteration diagnostic was printed. -/
noncomputable def svdLoop (jqr : ℕ → ℕ → Mat 𝕜 → Mat 𝕜 × Mat 𝕜)
    (m n s : ℕ) (A : Mat 𝕜) (tol : ℝ) :
    ℕ → Mat 𝕜 → (Mat 𝕜 × Vec 𝕜 × Mat 𝕜) × Bool
  | 0, V =>
    ((( block_svd_iteration jqr m n s A V).1,
      (block_svd_iteration jqr m n s A V).2.1,
      (block_svd_iteration jqr m n s A V).2.2.1), true)
  | fuel + 1, V =>
    if (block_svd_iteration jqr m n s A V).2.2.2 ≤ tol ∨ fuel + 1 ≤ 1 then
      ((( block_svd_iteration jqr m n s A V).1,
        (block_svd_iteration jqr m n s A V).2.1,
        (block_svd_iteration jqr m n s A V).2.2.1),
       decide (fuel + 1 ≤ 1))
    else svdLoop jqr m n s A tol fuel
      (block_svd_iteration jqr m n s A V).2.2.1

/-- Source `block_power_svd(A, s, tol, max_iter)`.  `s` defaults to
`None` in the source; comparing `None < 0` in the range check raises a
`TypeError`.  The random starting block (a collaborator) is `V0`. -/
noncomputable def block_power_svd (jqr : ℕ → ℕ → Mat 𝕜 → Mat 𝕜 × Mat 𝕜)
    (m n : ℕ) (A : Mat 𝕜) (s : Option ℤ) (tol : ℝ) (max_iter : ℕ)
    (V0 : Mat 𝕜) : Except PyError ((Mat 𝕜 × Vec 𝕜 × Mat 𝕜) × Bool) :=
  match s with
  | none => Except.error PyError.typeError
  | some s =>
    if s < 0 ∨ (n : ℤ) ≤ s then Except.error (PyError.valueErrorS s)
    else Except.ok (svdLoop jqr m n s.toNat A tol max_iter V0)

/-- The sequence of `V` blocks produced by iterating
`__block_svd_iteration` from the starting block `V0`. -/
noncomputable def svdVSeq (jqr : ℕ → ℕ → Mat 𝕜 → Mat 𝕜 × Mat 𝕜)
    (m n s : ℕ) (A V0 : Mat 𝕜) : ℕ → Mat 𝕜
  | 0 => V0
  | k + 1 =>
    (block_svd_iteration jqr m n s A (svdVSeq jqr m n s A V0 k)).2.2.1

/-- The error of iteration `k + 1` (computed from the `k`-th `V`). -/
noncomputable def svdErrAt (jqr : ℕ → ℕ → Mat 𝕜 → Mat 𝕜 × Mat 𝕜)
    (m n s : ℕ) (A V0 : Mat 𝕜) (k : ℕ) : ℝ :=
  (block_svd_iteration jqr m n s A (svdVSeq jqr m n s A V0 k)).2.2.2

/-- The `[U, Sigma, V]` triple of iteration `k + 1`. -/
noncomputable def svdTripleAt (jqr : ℕ → ℕ → Mat 𝕜 → Mat 𝕜 × Mat 𝕜)
    (m n s : ℕ) (A V0 : Mat 𝕜) (k : ℕ) : Mat 𝕜 × Vec 𝕜 × Mat 𝕜 :=
  ((block_svd_iteration jqr m n s A (svdVSeq jqr m n s A V0 k)).1,
   (block_svd_iteration jqr m n s A (svdVSeq jqr m n s A V0 k)).2.1,
   (block_svd_iteration jqr m n s A (svdVSeq jqr m n s A V0 k)).2.2.1)

theorem svdLoop_spec (jqr : ℕ → ℕ → Mat 𝕜 → Mat 𝕜 × Mat 𝕜)
    (m n s : ℕ) (A : Mat 𝕜) (tol : ℝ) (V0 : Mat 𝕜) :
    ∀ fuel k0, ∃ j, j + 1 ≤ max fuel 1
      ∧ svdLoop jqr m n s A tol fuel (svdVSeq jqr m n s A V0 k0)
          = (svdTripleAt jqr m n s A V0 (k0 + j), decide (fuel ≤ j + 1))
      ∧ (∀ j2, j2 < j → tol < svdErrAt jqr m n s A V0 (k0 + j2))
      ∧ (svdErrAt jqr m n s A V0 (k0 + j) ≤ tol ∨ j + 1 = max fuel 1) := by
  intro fuel
  induction fuel with
  | zero =>
    intro k0
    refine ⟨0, by omega, ?_, by omega, Or.inr (by omega)⟩
    rw [Nat.add_zero]
    rfl
  | succ fuel ih =>
    intro k0
    have hmax : max (fuel + 1) 1 = fuel + 1 :=
      Nat.max_eq_left (by omega)
    by_cases hstop : svdErrAt jqr m n s A V0 k0 ≤ tol ∨ fuel + 1 ≤ 1
    · refine ⟨0, by omega, ?_, by omega, ?_⟩
      · show (if (block_svd_iteration jqr m n s A
            (svdVSeq jqr m n s A V0 k0)).2.2.2 ≤ tol ∨ fuel + 1 ≤ 1
          then ((( block_svd_iteration jqr m n s A
              (svdVSeq jqr m n s A V0 k0)).1,
            (block_svd_iteration jqr m n s A
              (svdVSeq jqr m n s A V0 k0)).2.1,
            (block_svd_iteration jqr m n s A
              (svdVSeq jqr m n s A V0 k0)).2.2.1),
           decide (fuel + 1 ≤ 1))
          else svdLoop jqr m n s A tol fuel
            (block_svd_iteration jqr m n s A
              (svdVSeq jqr m n s A V0 k0)).2.2.1) = _
        have hstop2 : (block_svd_iteration jqr m n s A
            (svdVSeq jqr m n s A V0 k0)).2.2.2 ≤ tol ∨ fuel + 1 ≤ 1 := hstop
        rw [if_pos hstop2, Nat.add_zero]
        rfl
      · rcases hstop with h | h
        · left
          rw [Nat.add_zero]
          exact h
        · right
          rw [hmax]
          omega
    · push_neg at hstop
      obtain ⟨j, hb, heq, herr, hlast⟩ := ih (k0 + 1)
      have hmax2 : max fuel 1 = fuel := Nat.max_eq_left (by omega)
      refine ⟨j + 1, ?_, ?_, ?_, ?_⟩
      · rw [hmax]
        omega
      · show (if (block_svd_iteration jqr m n s A
            (svdVSeq jqr m n s A V0 k0)).2.2.2 ≤ tol ∨ fuel + 1 ≤ 1
          then ((( block_svd_iteration jqr m n s A
              (svdVSeq jqr m n s A V0 k0)).1,
            (block_svd_iteration jqr m n s A
              (svdVSeq jqr m n s A V0 k0)).2.1,
            (block_svd_iteration jqr m n s A
              (svdVSeq jqr m n s A V0 k0)).2.2.1),
           decide (fuel + 1 ≤ 1))
          else svdLoop jqr m n s A tol fuel
            (block_svd_iteration jqr m n s A
              (svdVSeq jqr m n s A V0 k0)).2.2.1) = _
        have hgo : ¬((block_svd_iteration jqr m n s A
            (svdVSeq jqr m n s A V0 k0)).2.2.2 ≤ tol ∨ fuel + 1 ≤ 1) := by
          rw [not_or]
          exact ⟨not_le.mpr hstop.1, by omega⟩
        rw [if_neg hgo]
        rw [show (block_svd_iteration jqr m n s A
            (svdVSeq jqr m n s A V0 k0)).2.2.1
          = svdVSeq jqr m n s A V0 (k0 + 1) from rfl]
        rw [heq]
        rw [show k0 + 1 + j = k0 + (j + 1) from by omega]
        congr 1
        rw [decide_eq_decide]
        omega
      · intro j2 hj2
        rcases Nat.eq_zero_or_pos j2 with h0 | h0
        · subst h0
          rw [Nat.add_zero]
          exact hstop.1
        · have h2 := herr (j2 - 1) (by omega)
          rw [show k0 + 1 + (j2 - 1) = k0 + j2 from by omega] at h2
          exact h2
      · rcases hlast with h | h
        · left
          rw [show k0 + (j + 1) = k0 + 1 + j from by omega]
          exact h
        · right
          rw [hmax]
          omega

theorem recursiveQR_valid (jqr : ℕ → ℕ → Mat 𝕜 → Mat 𝕜 × Mat 𝕜) (m : ℕ)
    (hjqr : ∀ nx, nx ≤ m → ∀ B : Mat 𝕜,
      (∀ i l, i < m → l < nx →
        ∑ r ∈ Finset.range nx, (jqr m nx B).1 i r * (jqr m nx B).2 r l
          = B i l)
      ∧ (∀ i l, i < nx → l < i → (jqr m nx B).2 i l = 0))
    (nb : ℤ) (hnb : 1 ≤ nb) :
    ∀ n, n ≤ m → ∀ A : Mat 𝕜, ∃ Q R,
      recursiveQR jqr m nb n A = Except.ok (Q, R)
      ∧ (∀ i l, i < m → l < n →
          ∑ r ∈ Finset.range n, Q i r * R r l = A i l)
      ∧ (∀ i l, i < n → l < i → R i l = 0) := by
  intro n
  induction n using Nat.strong_induction_on with
  | _ n ih =>
    intro hnm A
    rw [recursiveQR]
    rw [dif_neg (by omega : ¬nb < 1)]
    by_cases hbase : (n : ℤ) ≤ nb
    · rw [dif_pos hbase]
      exact ⟨(jqr m n A).1, (jqr m n A).2, rfl, (hjqr n hnm A).1,
        (hjqr n hnm A).2⟩
    · rw [dif_neg hbase]
      have hn1 : 1 ≤ n := by omega
      have hn2 : n / 2 < n := by omega
      have hn2b : n - n / 2 < n := by omega
      have hn0pos : 0 < n / 2 := by omega
      obtain ⟨Q0, R00, hrec0, hmul0, htri0⟩ :=
        ih (n / 2) hn2 (by omega) A
      rw [hrec0]
      dsimp only
      set A1 : Mat 𝕜 := fun i l => A i (n / 2 + l)
        - ∑ c ∈ Finset.range (n / 2), Q0 i c
            * (∑ r ∈ Finset.range m, cj (Q0 r c) * A r (n / 2 + l))
        with hA1def
      obtain ⟨Q1, R11, hrec1, hmul1, htri1⟩ :=
        ih (n - n / 2) hn2b (by omega) A1
      rw [hrec1]
      dsimp only
      refine ⟨_, _, rfl, ?_, ?_⟩
      · intro i l him hln
        rw [← Finset.sum_range_add_sum_Ico _ (by omega : n / 2 ≤ n)]
        by_cases hl : l < n / 2
        · have h1 : ∑ r ∈ Finset.range (n / 2),
              (if r < n / 2 then Q0 i r else Q1 i (r - n / 2))
                * (if r < n / 2 then
                    (if l < n / 2 then R00 r l
                      else ∑ r2 ∈ Finset.range m,
                        cj (Q0 r2 r) * A r2 (n / 2 + (l - n / 2)))
                  else if l < n / 2 then 0
                    else R11 (r - n / 2) (l - n / 2))
              = ∑ r ∈ Finset.range (n / 2), Q0 i r * R00 r l := by
            apply Finset.sum_congr rfl
            intro r hr
            have hr1 := Finset.mem_range.mp hr
            rw [if_pos hr1, if_pos hr1, if_pos hl]
          have h2 : ∑ r ∈ Finset.Ico (n / 2) n,
              (if r < n / 2 then Q0 i r else Q1 i (r - n / 2))
                * (if r < n / 2 then
                    (if l < n / 2 then R00 r l
                      else ∑ r2 ∈ Finset.range m,
                        cj (Q0 r2 r) * A r2 (n / 2 + (l - n / 2)))
                  else if l < n / 2 then 0
                    else R11 (r - n / 2) (l - n / 2))
              = 0 := by
            apply Finset.sum_eq_zero
            intro r hr
            have hr1 := (Finset.mem_Ico.mp hr).1
            rw [if_neg (by omega), if_neg (by omega), if_pos hl]
            ring
          rw [h1, h2, add_zero, hmul0 i l him hl]
        · have h1 : ∑ r ∈ Finset.range (n / 2),
              (if r < n / 2 then Q0 i r else Q1 i (r - n / 2))
                * (if r < n / 2 then
                    (if l < n / 2 then R00 r l
                      else ∑ r2 ∈ Finset.range m,
                        cj (Q0 r2 r) * A r2 (n / 2 + (l - n / 2)))
                  else if l < n / 2 then 0
                    else R11 (r - n / 2) (l - n / 2))
              = ∑ r ∈ Finset.range (n / 2), Q0 i r
                  * (∑ r2 ∈ Finset.range m,
                      cj (Q0 r2 r) * A r2 (n / 2 + (l - n / 2))) := by
            apply Finset.sum_congr rfl
            intro r hr
            have hr1 := Finset.mem_range.mp hr
            rw [if_pos hr1, if_pos hr1, if_neg hl]
          have h2 : ∑ r ∈ Finset.Ico (n / 2) n,
              (if r < n / 2 then Q0 i r else Q1 i (r - n / 2))
                * (if r < n / 2 then
                    (if l < n / 2 then R00 r l
                      else ∑ r2 ∈ Finset.range m,
                        cj (Q0 r2 r) * A r2 (n / 2 + (l - n / 2)))
                  else if l < n / 2 then 0
                    else R11 (r - n / 2) (l - n / 2))
              = A1 i (l - n / 2) := by
            rw [sum_tail_shift]
            have h3 : ∀ r ∈ Finset.range (n - n / 2),
                (if n / 2 + r < n / 2 then Q0 i (n / 2 + r)
                  else Q1 i (n / 2 + r - n / 2))
                  * (if n / 2 + r < n / 2 then
                      (if l < n / 2 then R00 (n / 2 + r) l
                        else ∑ r2 ∈ Finset.range m,
                          cj (Q0 r2 (n / 2 + r)) * A r2 (n / 2 + (l - n / 2)))
                    else if l < n / 2 then 0
                      else R11 (n / 2 + r - n / 2) (l - n / 2))
                = Q1 i r * R11 r (l - n / 2) := by
              intro r _
              rw [if_neg (by omega), if_neg (by omega), if_neg hl,
                Nat.add_sub_cancel_left]
            rw [Finset.sum_congr rfl h3,
              hmul1 i (l - n / 2) him (by omega)]
          rw [h1, h2, hA1def]
          dsimp only
          rw [show n / 2 + (l - n / 2) = l from by omega]
          ring
      · intro i l hin hl
        by_cases hi : i < n / 2
        · rw [if_pos hi, if_pos (by omega)]
          exact htri0 i l hi hl
        · rw [if_neg hi]
          by_cases hl2 : l < n / 2
          · rw [if_pos hl2]
          · rw [if_neg hl2]
            exact htri1 (i - n / 2) (l - n / 2) (by omega) (by omega)

/-- C1 (amended): for every matrix `A` with `M >= N`, real or complex,
PROVIDED no elimination step meets a pivot subcolumn with zero leading
entry and nonzero tail (the degenerate case in which `house` divides by
zero), `factored_to_QR(houseqr_factored(A))` yields `Q`, `R` with
`Q.R = A`, `dag(Q).Q = I` and `R` upper triangular. -/
theorem claim_C1 (m n : ℕ) (A : Mat 𝕜) (hmn : n ≤ m)
    (hgood : GoodPivots m n A) :
    (∀ i l, i < m → l < n →
      matMulN m (qrOfA m n A).1 (qrOfA m n A).2 i l = A i l)
    ∧ (∀ i l, i < m → l < m →
      ∑ r ∈ Finset.range m, cj ((qrOfA m n A).1 r i) * (qrOfA m n A).1 r l
        = (idMat : Mat 𝕜) i l)
    ∧ (∀ i l, l < i → (qrOfA m n A).2 i l = 0) :=
  ⟨fun i l him hln => qrOfA_mul m n A hmn hgood i l him hln,
   fun i l him hlm => qrOfA_unitary m n A hmn hgood i l him hlm,
   fun i l hil => qrOfA_triangular m n A i l hil⟩

/-- C2 (amended): for every vector `x` whose leading entry is nonzero
or whose tail norm is zero (the regular cases; `x[0] = 0` with a
nonzero tail makes `house` divide by zero), `house(x) = (v, beta)` has
`v[0] = 1` and `P = I - beta v dag(v)` maps `x` to a vector with zero
entries below index 0 and the same norm as `x`. -/
theorem claim_C2 (k : ℕ) (x : Vec 𝕜)
    (hgood : x 0 ≠ 0 ∨ x2norm k x = 0) :
    (house k x).1 0 = 1
    ∧ (∀ i, 1 ≤ i → i < k → housePapply k x i = 0)
    ∧ vecNorm k (housePapply k x) = vecNorm k x :=
  ⟨house_v0 k x, house_papply_tail k x hgood,
   house_norm_preserved k x hgood⟩

/-- C3 (amended): the zero-tail branch of `house` is total (an all-zero
vector yields `beta = 0`), and `house` performs no division by zero as
long as `x[0]` is nonzero or the tail norm is zero; in the remaining
case (`x[0] = 0` with nonzero tail) the chosen pivot `v_1` is zero and
`x[1:] / v_1` divides by zero. -/
theorem claim_C3 (k : ℕ) (x : Vec 𝕜) :
    ((x 0 ≠ 0 ∨ x2norm k x = 0) → ¬houseDividesByZero k x)
    ∧ (0 < k → (∀ i, i < k → x i = 0) → (house k x).2 = 0) := by
  constructor
  · intro hgood hdiv
    rcases (houseDividesByZero_iff k x).mp hdiv with ⟨ht, ha⟩
    rcases hgood with h | h
    · exact h ha
    · exact ht h
  · exact fun hk hzero => house_beta_zero_vec k x hk hzero

/-- C4: for every matrix `A` with `M >= N >= 1`, reconstructing dense
`Q` through the WY representation
(`WY_to_Q(factored_to_WY(houseqr_factored(A)))`) gives the same matrix
as `factored_to_QR(houseqr_factored(A))`, entry by entry on the
`M x M` square. -/
theorem claim_C4 (m n : ℕ) (A : Mat 𝕜) (hn : 0 < n) (hnm : n ≤ m) :
    ∀ i l, i < m → l < m →
      WY_to_Q m n
        (factored_to_WY m n (house_qr_factored m n A).1
          (house_qr_factored m n A).2).1
        (factored_to_WY m n (house_qr_factored m n A).1
          (house_qr_factored m n A).2).2 i l
      = (factored_to_QR m n (house_qr_factored m n A).1
          (house_qr_factored m n A).2).1 i l := by
  intro i l him hlm
  rw [WYQ_eq m n _ _ hn hnm i l him hlm,
    factoredQ_eq_Eprod m n _ _ hnm i l him hlm]

/-- C5 (amended): in `factored_to_WY`, for every column `j >= 1` the
vector stored into column `j` of `W` is
`z = +beta_j (v_j - W[:, :j] (dag(Y[:, :j]) v_j))` - the sign is
opposite to the one in the claim - and column `j` of `Y` from row `j`
down holds `v_j[j:]` (so row `j` of the returned `YH` holds its
conjugate). -/
theorem claim_C5 (m n : ℕ) (H : Mat 𝕜) (βs : ℕ → ℝ) (j : ℕ)
    (hj1 : 1 ≤ j) (hjn : j < n) (hjm : j ≤ m) :
    (∀ i, (factored_to_WY m n H βs).1 i j
      = ((βs j : ℝ) : 𝕜)
        * (ucVec H j i - ∑ c ∈ Finset.range j,
            (factored_to_WY m n H βs).1 i c
              * (∑ r ∈ Finset.range m,
                  (factored_to_WY m n H βs).2 c r * ucVec H j r)))
    ∧ (∀ i, j ≤ i →
        (factored_to_WY m n H βs).2 j i = cj (ucVec H j i)) := by
  constructor
  · exact fun i => factored_to_WY_Wcol m n H βs j hj1 hjn hjm i
  · intro i hji
    show cj ((wyAux m H βs (n - 1)).2.1 i j) = _
    rw [wyAux_Y_col m H βs (n - 1) j (by omega) i]

/-- C6: for every matrix with more columns than rows (`N > M`),
`house_qr` in `factored` or `WY` mode fails with the
`NotImplementedError` of the source (whose message even lacks a space
between "factored" and "or") and produces no factorization. -/
theorem claim_C6 (denseqr : Mat 𝕜 → String → Mat 𝕜 × Mat 𝕜)
    (m n : ℕ) (A : Mat 𝕜) (hmn : m < n) :
    house_qr denseqr m n A "factored"
      = Except.error (PyError.notImplementedError
          "n > m QR not implemented in factoredor WY mode.")
    ∧ house_qr denseqr m n A "WY"
      = Except.error (PyError.notImplementedError
          "n > m QR not implemented in factoredor WY mode.") := by
  constructor
  · unfold house_qr
    rw [if_neg (by decide), if_pos (by omega)]
  · unfold house_qr
    rw [if_neg (by decide), if_pos (by omega)]

/-- C7 (amended): for every block size `>= 1` and every `A` with
`N <= M`, `recursiveQR` succeeds and returns a valid reduced QR
factorization (`Q.R = A` and `R` upper triangular) whenever the
base-case dense-QR collaborator does so on its inputs; its `Q` and `R`
need not coincide entrywise with the factored-mode `Q`, `R`, which form
a different QR factorization of the same `A`. -/
theorem claim_C7 (jqr : ℕ → ℕ → Mat 𝕜 → Mat 𝕜 × Mat 𝕜) (m : ℕ)
    (hjqr : ∀ nx, nx ≤ m → ∀ B : Mat 𝕜,
      (∀ i l, i < m → l < nx →
        ∑ r ∈ Finset.range nx, (jqr m nx B).1 i r * (jqr m nx B).2 r l
          = B i l)
      ∧ (∀ i l, i < nx → l < i → (jqr m nx B).2 i l = 0))
    (nb : ℤ) (hnb : 1 ≤ nb) (n : ℕ) (hnm : n ≤ m) (A : Mat 𝕜) :
    ∃ Q R, recursiveQR jqr m nb n A = Except.ok (Q, R)
      ∧ (∀ i l, i < m → l < n →
          ∑ r ∈ Finset.range n, Q i r * R r l = A i l)
      ∧ (∀ i l, i < n → l < i → R i l = 0) :=
  recursiveQR_valid jqr m hjqr nb hnb n hnm A

/-- C8: `block_power_svd` (for a valid truncation rank) never raises:
it loops until the error is at most `tol` or the iteration count
reaches `max_iter`, and on reaching the cap it sets the diagnostic
flag and still returns the current `(U, Sigma, V)` triple. -/
theorem claim_C8 (jqr : ℕ → ℕ → Mat 𝕜 → Mat 𝕜 × Mat 𝕜) (m n : ℕ)
    (A V0 : Mat 𝕜) (tol : ℝ) (max_iter : ℕ) (s : ℤ)
    (hs0 : 0 ≤ s) (hsn : s < (n : ℤ)) :
    ∃ j, j + 1 ≤ max max_iter 1
      ∧ block_power_svd jqr m n A (some s) tol max_iter V0
          = Except.ok (svdTripleAt jqr m n s.toNat A V0 j,
              decide (max_iter ≤ j + 1))
      ∧ (∀ j2, j2 < j → tol < svdErrAt jqr m n s.toNat A V0 j2)
      ∧ (svdErrAt jqr m n s.toNat A V0 j ≤ tol
          ∨ j + 1 = max max_iter 1) := by
  obtain ⟨j, h1, h2, h3, h4⟩ :=
    svdLoop_spec jqr m n s.toNat A tol V0 max_iter 0
  simp only [Nat.zero_add] at h2 h3 h4
  refine ⟨j, h1, ?_, h3, h4⟩
  unfold block_power_svd
  dsimp only
  rw [if_neg (by omega)]
  rw [show svdLoop jqr m n s.toNat A tol max_iter V0
      = svdLoop jqr m n s.toNat A tol max_iter
          (svdVSeq jqr m n s.toNat A V0 0) from rfl]
  rw [h2]

/-- C9 (amended): `block_size < 1` in recursive QR and `s` outside
`[0, N)` in `block_power_svd` fail fast with the `ValueError` carrying
the offending value, and so does an unrecognized mode string in
`house_qr` PROVIDED `N <= M`: when `N > M` the `NotImplementedError`
check precedes mode validation, so an unrecognized mode raises
`NotImplementedError` instead. -/
theorem claim_C9 :
    (∀ (jqr : ℕ → ℕ → Mat 𝕜 → Mat 𝕜 × Mat 𝕜) (m : ℕ) (nb : ℤ)
      (n : ℕ) (A : Mat 𝕜), nb < 1 →
      recursiveQR jqr m nb n A
        = Except.error (PyError.valueErrorBlock nb))
    ∧ (∀ (jqr : ℕ → ℕ → Mat 𝕜 → Mat 𝕜 × Mat 𝕜) (m n : ℕ) (A : Mat 𝕜)
      (s : ℤ) (tol : ℝ) (mi : ℕ) (V0 : Mat 𝕜), s < 0 ∨ (n : ℤ) ≤ s →
      block_power_svd jqr m n A (some s) tol mi V0
        = Except.error (PyError.valueErrorS s))
    ∧ (∀ (denseqr : Mat 𝕜 → String → Mat 𝕜 × Mat 𝕜) (m n : ℕ)
      (A : Mat 𝕜) (mode : String),
      mode ≠ "reduced" → mode ≠ "complete" → mode ≠ "r" →
      mode ≠ "factored" → mode ≠ "WY" → n ≤ m →
      house_qr denseqr m n A mode
        = Except.error (PyError.valueErrorMode mode)) := by
  refine ⟨?_, ?_, ?_⟩
  · intro jqr m nb n A hnb
    rw [recursiveQR, dif_pos hnb]
  · intro jqr m n A s tol mi V0 hs
    unfold block_power_svd
    dsimp only
    rw [if_pos hs]
  · intro denseqr m n A mode h1 h2 h3 h4 h5 hnm
    unfold house_qr
    rw [if_neg (by tauto), if_neg (by omega), if_neg h4, if_neg h5]

/-- C10: calling `block_power_svd` without supplying the truncation
rank `s` (the default `s = None`) raises a `TypeError` at the
comparison `s < 0` of the range check, not the `ValueError` that
reports an offending value. -/
theorem claim_C10 (jqr : ℕ → ℕ → Mat 𝕜 → Mat 𝕜 × Mat 𝕜) (m n : ℕ)
    (A : Mat 𝕜) (tol : ℝ) (mi : ℕ) (V0 : Mat 𝕜) :
    block_power_svd jqr m n A none tol mi V0
        = Except.error PyError.typeError
      ∧ ∀ z : ℤ, block_power_svd jqr m n A none tol mi V0
        ≠ Except.error (PyError.valueErrorS z) := by
  constructor
  · rfl
  · intro z h
    exact absurd (Except.error.inj h) (by simp)



def Aone : Mat ℝ := fun _ _ => 1

def A21 : Mat ℝ := fun i _ => if i = 1 then 1 else 0

def xc2 : Vec ℝ := fun i => if i = 1 then 1 else 0

def Hc : Mat ℝ := fun i l => if i = 1 ∧ l = 0 then 1 else 0

def cbeta : ℕ → ℝ := fun _ => 1

noncomputable def jqrTriv : ℕ → ℕ → Mat ℝ → Mat ℝ × Mat ℝ :=
  fun _ _ B => (idMat, B)

noncomputable def dq0 : Mat ℝ → String → Mat ℝ × Mat ℝ := fun B _ => (B, B)

theorem xc2_x2norm : x2norm 2 xc2 = 1 := by
  unfold x2norm tailNormSq xc2
  rw [show Finset.Ico 1 2 = {1} from rfl]
  simp

theorem Aone_good : GoodPivots 1 1 Aone := by
  intro j hj
  right
  have hj0 : j = 0 := by omega
  subst hj0
  unfold x2norm tailNormSq
  simp

theorem xc2_v1 : (house_v1 xc2 (x2norm 2 xc2)).1 = 0 := by
  rw [xc2_x2norm]
  unfold house_v1 house_rho sign
  rw [if_pos (show xc2 0 = 0 by norm_num [xc2])]
  norm_num [xc2]

theorem xc2_house_v_1 : (house 2 xc2).1 1 = 0 := by
  unfold house
  rw [if_neg (by rw [xc2_x2norm]; norm_num)]
  show (if (1:ℕ) = 0 then 1 else xc2 1 / (house_v1 xc2 (x2norm 2 xc2)).1) = 0
  rw [if_neg (by norm_num), xc2_v1]
  simp

/-- Witness for C1: the 1 x 1 all-ones matrix satisfies the provisos
(`n <= m` and good pivots) and the amended conclusion. -/
theorem claim_C1_witness :
    ((1:ℕ) ≤ 1 ∧ GoodPivots 1 1 Aone)
    ∧ ((∀ i l, i < 1 → l < 1 →
        matMulN 1 (qrOfA 1 1 Aone).1 (qrOfA 1 1 Aone).2 i l = Aone i l)
      ∧ (∀ i l, i < 1 → l < 1 →
        ∑ r ∈ Finset.range 1,
            cj ((qrOfA 1 1 Aone).1 r i) * (qrOfA 1 1 Aone).1 r l
          = (idMat : Mat ℝ) i l)
      ∧ (∀ i l, l < i → (qrOfA 1 1 Aone).2 i l = 0)) :=
  ⟨⟨le_refl 1, Aone_good⟩, claim_C1 1 1 Aone (le_refl 1) Aone_good⟩

/-- Witness for C2: the constant-3 vector of length 2 has a nonzero
leading entry and enjoys the full conclusion. -/
theorem claim_C2_witness :
    ((fun _ : ℕ => (3:ℝ)) 0 ≠ 0 ∨ x2norm 2 (fun _ : ℕ => (3:ℝ)) = 0)
    ∧ ((house 2 (fun _ : ℕ => (3:ℝ))).1 0 = 1
      ∧ (∀ i, 1 ≤ i → i < 2 → housePapply 2 (fun _ : ℕ => (3:ℝ)) i = 0)
      ∧ vecNorm 2 (housePapply 2 (fun _ : ℕ => (3:ℝ)))
          = vecNorm 2 (fun _ : ℕ => (3:ℝ))) :=
  ⟨Or.inl (by norm_num), claim_C2 2 (fun _ : ℕ => (3:ℝ)) (Or.inl (by norm_num))⟩

/-- Counterexample for C2 as stated of every vector: on `x = (0, 1)`
the entry of `P x` below the head is `1`, not `0` (the reflector built
from the division-by-zero branch does not annihilate the tail). -/
theorem claim_C2_counterexample :
    housePapply 2 xc2 1 = 1 ∧ (1:ℝ) ≠ 0 := by
  constructor
  · unfold housePapply
    rw [xc2_house_v_1]
    norm_num [xc2]
  · norm_num

/-- Counterexample for C3 as stated (no division by zero ever): on
`x = (0, 1)` the tail norm is nonzero and the chosen pivot `v_1` is
zero, so `house` divides `x[1:]` by zero. -/
theorem claim_C3_counterexample : houseDividesByZero 2 xc2 := by
  rw [houseDividesByZero_iff]
  constructor
  · rw [xc2_x2norm]
    norm_num
  · norm_num [xc2]

/-- Witness for C6: a 1 x 2 matrix (more columns than rows) makes both
custom modes fail with the source's `NotImplementedError`. -/
theorem claim_C6_witness :
    ((1:ℕ) < 2)
    ∧ (house_qr dq0 1 2 Aone "factored"
        = Except.error (PyError.notImplementedError
            "n > m QR not implemented in factoredor WY mode.")
      ∧ house_qr dq0 1 2 Aone "WY"
        = Except.error (PyError.notImplementedError
            "n > m QR not implemented in factoredor WY mode.")) :=
  ⟨by omega, claim_C6 dq0 1 2 Aone (by omega)⟩

/-- Counterexample for C9 as stated of every unrecognized mode: with
more columns than rows, the bogus mode is reported as
`NotImplementedError`, not as the `ValueError` carrying the mode. -/
theorem claim_C9_counterexample :
    house_qr dq0 1 2 Aone "bogus"
      = Except.error (PyError.notImplementedError
          "n > m QR not implemented in factoredor WY mode.")
    ∧ (Except.error (PyError.notImplementedError
          "n > m QR not implemented in factoredor WY mode.")
        : Except PyError (QROut ℝ))
      ≠ Except.error (PyError.valueErrorMode "bogus") := by
  constructor
  · unfold house_qr
    rw [if_neg (by decide), if_pos (by omega)]
  · intro h
    exact absurd (Except.error.inj h) (by simp)

theorem A21_pivot : (fun i => A21 (0 + i) 0) = xc2 := by
  funext i
  simp [A21, xc2]

theorem A21_H00 : (house_qr_factored 2 1 A21).1 0 0 = 0 := by
  show (houseStep 2 0 A21).1 0 0 = 0
  unfold houseStep house_leftmult sliceMat
  dsimp only
  rw [A21_pivot]
  rw [if_neg (by omega), if_pos (by omega)]
  norm_num [Finset.sum_range_succ, house_v0, xc2_house_v_1, cj, A21]

/-- Counterexample for C1 as stated of every `M >= N` matrix: for the
2 x 1 matrix with rows `(0)` and `(1)`, the product `Q R` of the
factored pipeline has entry `(1,0)` equal to `0`, not the matrix entry
`1` (the bad pivot makes the elimination divide by zero). -/
theorem claim_C1_counterexample :
    matMulN 2 (qrOfA 2 1 A21).1 (qrOfA 2 1 A21).2 1 0 = 0
    ∧ A21 1 0 = 1
    ∧ matMulN 2 (qrOfA 2 1 A21).1 (qrOfA 2 1 A21).2 1 0 ≠ A21 1 0 := by
  have hR0 : (qrOfA 2 1 A21).2 0 0 = 0 := by
    show triu (house_qr_factored 2 1 A21).1 0 0 = 0
    unfold triu
    rw [if_pos (le_refl 0), A21_H00]
  have hR1 : (qrOfA 2 1 A21).2 1 0 = 0 := by
    show triu (house_qr_factored 2 1 A21).1 1 0 = 0
    unfold triu
    rw [if_neg (by omega)]
  have hmul : matMulN 2 (qrOfA 2 1 A21).1 (qrOfA 2 1 A21).2 1 0 = 0 := by
    unfold matMulN
    rw [Finset.sum_range_succ, Finset.sum_range_one, hR0, hR1]
    ring
  refine ⟨hmul, by norm_num [A21], ?_⟩
  rw [hmul, show A21 1 0 = 1 by norm_num [A21]]
  norm_num

/-- Witness for C4: on the 1 x 1 all-ones matrix the WY route and the
direct route agree entrywise. -/
theorem claim_C4_witness :
    ((0:ℕ) < 1 ∧ (1:ℕ) ≤ 1)
    ∧ ∀ i l, i < 1 → l < 1 →
      WY_to_Q 1 1
        (factored_to_WY 1 1 (house_qr_factored 1 1 Aone).1
          (house_qr_factored 1 1 Aone).2).1
        (factored_to_WY 1 1 (house_qr_factored 1 1 Aone).1
          (house_qr_factored 1 1 Aone).2).2 i l
      = (factored_to_QR 1 1 (house_qr_factored 1 1 Aone).1
          (house_qr_factored 1 1 Aone).2).1 i l :=
  ⟨⟨Nat.one_pos, le_refl 1⟩, claim_C4 1 1 Aone Nat.one_pos (le_refl 1)⟩

/-- Witness for C5: the 2 x 2 factored pair `(Hc, cbeta)` at column
`j = 1` satisfies the amended column formulas. -/
theorem claim_C5_witness :
    ((1:ℕ) ≤ 1 ∧ (1:ℕ) < 2 ∧ (1:ℕ) ≤ 2)
    ∧ ((∀ i, (factored_to_WY 2 2 Hc cbeta).1 i 1
        = ((cbeta 1 : ℝ) : ℝ)
          * (ucVec Hc 1 i - ∑ c ∈ Finset.range 1,
              (factored_to_WY 2 2 Hc cbeta).1 i c
                * (∑ r ∈ Finset.range 2,
                    (factored_to_WY 2 2 Hc cbeta).2 c r * ucVec Hc 1 r)))
      ∧ (∀ i, 1 ≤ i →
          (factored_to_WY 2 2 Hc cbeta).2 1 i = cj (ucVec Hc 1 i))) :=
  ⟨⟨le_refl 1, by omega, by omega⟩,
   claim_C5 2 2 Hc cbeta 1 (le_refl 1) (by omega) (by omega)⟩

theorem Hc_W01 : (factored_to_WY 2 2 Hc cbeta).1 0 1 = -1 := by
  show (wyStep 2 Hc cbeta (0 + 1) (wyInit 2 Hc cbeta)).1 0 1 = -1
  rw [wyStep_Wcol]
  rw [show Finset.Ico 1 2 = {1} from rfl]
  norm_num [wyInit, Hc, cbeta, ucVec, cj]

/-- Counterexample for C5 as stated with the minus sign: for the 2 x 2
factored pair `(Hc, cbeta)` the stored column has `W[0,1] = -1`, while
the claimed `z = -beta_j (v_j - W (dag Y) v_j)` evaluates to `+1`
there. -/
theorem claim_C5_counterexample :
    (factored_to_WY 2 2 Hc cbeta).1 0 1 = -1
    ∧ -((cbeta 1 : ℝ))
        * (ucVec Hc 1 0 - ∑ c ∈ Finset.range 1,
            (factored_to_WY 2 2 Hc cbeta).1 0 c
              * (∑ r ∈ Finset.range 2,
                  (factored_to_WY 2 2 Hc cbeta).2 c r * ucVec Hc 1 r)) = 1
    ∧ ((-1 : ℝ) ≠ 1) := by
  have hW00 : (factored_to_WY 2 2 Hc cbeta).1 0 0 = 1 := by
    show (wyStep 2 Hc cbeta (0 + 1) (wyInit 2 Hc cbeta)).1 0 0 = 1
    unfold wyStep wyInit
    norm_num [Hc, cbeta]
  have hYH0 : (factored_to_WY 2 2 Hc cbeta).2 0 0 = 1 := by
    show cj ((wyStep 2 Hc cbeta (0 + 1) (wyInit 2 Hc cbeta)).2.1 0 0) = 1
    unfold wyStep wyInit
    norm_num [Hc, cj]
  have hYH1 : (factored_to_WY 2 2 Hc cbeta).2 0 1 = 1 := by
    show cj ((wyStep 2 Hc cbeta (0 + 1) (wyInit 2 Hc cbeta)).2.1 1 0) = 1
    unfold wyStep wyInit
    norm_num [Hc, cj]
  refine ⟨Hc_W01, ?_, by norm_num⟩
  rw [Finset.sum_range_one, Finset.sum_range_succ, Finset.sum_range_one,
    hW00, hYH0, hYH1]
  norm_num [ucVec, cbeta]

theorem jqrTriv_contract : ∀ nx, nx ≤ 1 → ∀ B : Mat ℝ,
    (∀ i l, i < 1 → l < nx →
      ∑ r ∈ Finset.range nx,
          (jqrTriv 1 nx B).1 i r * (jqrTriv 1 nx B).2 r l = B i l)
    ∧ (∀ i l, i < nx → l < i → (jqrTriv 1 nx B).2 i l = 0) := by
  intro nx hnx B
  constructor
  · intro i l hi hl
    have hnx1 : nx = 1 := by omega
    subst hnx1
    have hi0 : i = 0 := by omega
    have hl0 : l = 0 := by omega
    subst hi0
    subst hl0
    rw [Finset.sum_range_one]
    show idMat 0 0 * B 0 0 = B 0 0
    simp [idMat]
  · intro i l hi hl
    exact absurd hl (by omega)

/-- Witness for C7: with the trivial contract-satisfying base
collaborator, block size 1 and the 1 x 1 all-ones matrix, `recursiveQR`
succeeds with a valid reduced factorization. -/
theorem claim_C7_witness :
    ((1:ℤ) ≤ 1 ∧ (1:ℕ) ≤ 1)
    ∧ ∃ Q R, recursiveQR jqrTriv 1 1 1 Aone = Except.ok (Q, R)
      ∧ (∀ i l, i < 1 → l < 1 →
          ∑ r ∈ Finset.range 1, Q i r * R r l = Aone i l)
      ∧ (∀ i l, i < 1 → l < i → R i l = 0) :=
  ⟨⟨le_refl 1, le_refl 1⟩,
   claim_C7 jqrTriv 1 jqrTriv_contract 1 (le_refl 1) 1 (le_refl 1) Aone⟩

theorem qrOfA_Aone_Q : (qrOfA 1 1 Aone).1 0 0 = -1 := by
  have hβ : (house_qr_factored 1 1 Aone).2 0 = 2 := by
    show (if (0:ℕ) = 0 then (houseStep 1 0 Aone).2 else 0) = 2
    rw [if_pos rfl]
    unfold houseStep house
    dsimp only
    rw [if_pos (by unfold x2norm tailNormSq; simp)]
    show (if Aone (0 + 0) 0 = 0 then (0:ℝ) else 2) = 2
    norm_num [Aone]
  show qStep 1 (house_qr_factored 1 1 Aone).1
      (house_qr_factored 1 1 Aone).2 (1 - 1) (factoredToQAux 1 _ _ 1 0) 0 0
    = -1
  unfold qStep house_leftmult sliceMat
  dsimp only
  rw [if_pos (by omega)]
  rw [show (1:ℕ) - 1 = 0 from rfl]
  rw [hβ]
  norm_num [Finset.sum_range_one, idMat, cj, factoredToQAux]

theorem qrOfA_Aone_R : (qrOfA 1 1 Aone).2 0 0 = -1 := by
  show triu (house_qr_factored 1 1 Aone).1 0 0 = -1
  unfold triu
  rw [if_pos (le_refl 0)]
  show (houseStep 1 0 Aone).1 0 0 = -1
  unfold houseStep house_leftmult sliceMat
  dsimp only
  rw [if_neg (by omega), if_pos (by omega)]
  have hhouse : house (1 - 0) (fun i => Aone (0 + i) 0)
      = house_zero_norm (fun i => Aone (0 + i) 0) := by
    unfold house
    rw [if_pos (by unfold x2norm tailNormSq; simp)]
  rw [hhouse]
  unfold house_zero_norm
  dsimp only
  norm_num [Finset.sum_range_one, cj, Aone]

/-- Counterexample for C7 as stated (entrywise agreement with the
factored-mode dense `Q`, `R`): a valid base collaborator may return
`(I, A)` on the 1 x 1 all-ones matrix, while the factored pipeline
returns `Q = R = (-1)`. -/
theorem claim_C7_counterexample :
    recursiveQR jqrTriv 1 1 1 Aone = Except.ok ((idMat : Mat ℝ), Aone)
    ∧ (idMat : Mat ℝ) 0 0 = 1 ∧ Aone 0 0 = 1
    ∧ (qrOfA 1 1 Aone).1 0 0 = -1 ∧ (qrOfA 1 1 Aone).2 0 0 = -1
    ∧ ((1:ℝ) ≠ -1) := by
  refine ⟨?_, by norm_num [idMat], by norm_num [Aone],
    qrOfA_Aone_Q, qrOfA_Aone_R, by norm_num⟩
  rw [recursiveQR, dif_neg (by omega), dif_pos (by omega)]
  rfl

/-- Witness for C8: a valid rank `s = 0` on a 1 x 1 problem yields the
characterized loop behaviour. -/
theorem claim_C8_witness :
    ((0:ℤ) ≤ 0 ∧ (0:ℤ) < ((1:ℕ) : ℤ))
    ∧ ∃ j, j + 1 ≤ max 1 1
      ∧ block_power_svd jqrTriv 1 1 Aone (some 0) 0 1 Aone
          = Except.ok (svdTripleAt jqrTriv 1 1 (0:ℤ).toNat Aone Aone j,
              decide (1 ≤ j + 1))
      ∧ (∀ j2, j2 < j → 0 < svdErrAt jqrTriv 1 1 (0:ℤ).toNat Aone Aone j2)
      ∧ (svdErrAt jqrTriv 1 1 (0:ℤ).toNat Aone Aone j ≤ 0
          ∨ j + 1 = max 1 1) :=
  ⟨⟨le_refl 0, by omega⟩,
   claim_C8 jqrTriv 1 1 Aone Aone 0 1 0 (le_refl 0) (by omega)⟩

end DFact
